import Mathlib

/-!
# linuxskyline/agent : the install-line parser and the reconciler of `main.go`

A shallow embedding of `src/main.go`.

* A Go `string` is a sequence of bytes (`GoString`).  `len` is the number of
  bytes, `strings.HasPrefix` and `strings.Contains` compare bytes, and
  `for _, c := range s` walks the string rune by rune: it decodes UTF-8, and at
  a byte that does not start a well-formed encoding it yields U+FFFD and moves
  on by one byte.  `string(c)` is the UTF-8 encoding of the rune `c`.
* `skyline.Update` (declared in the `goskyline` library) is the record of the
  five fields `main.go` reads and writes.
* `agent.Client` is an external collaborator: its three methods are taken as a
  parameter (`Client`), acting on an abstract remote state, and every call and
  every log line written is recorded in a trace (`Event`).
* The logger is the standard logger of logrus at its default level, info, which
  `main.go` never changes: an entry at trace level is not written.
-/

namespace Agent

/-! ## Go strings -/

/-- One byte of a Go string. -/
abbrev Byte := Fin 256

/-- A Go `string`: an immutable sequence of bytes. -/
abbrev GoString := List Byte

/-- The byte with value `n % 256` (Go's `byte(n)` conversion). -/
def byte (n : Nat) : Byte := ⟨n % 256, Nat.mod_lt n (by decide)⟩

/-- The replacement rune `utf8.RuneError`, U+FFFD.  A Go `rune` (a Unicode code
point) is a natural number here. -/
def RuneError : Nat := 0xFFFD

/-- A UTF-8 continuation byte, `0x80 ..= 0xBF`. -/
def isCont (b : Byte) : Bool := decide (0x80 ≤ b.val) && decide (b.val ≤ 0xBF)

/-- The range the second byte of a sequence led by `s0` must lie in
(`acceptRanges` of Go's `unicode/utf8`). -/
def acceptLo (s0 : Byte) : Nat :=
  if s0.val = 0xE0 then 0xA0 else if s0.val = 0xF0 then 0x90 else 0x80

/-- Upper end of the range of the second byte. -/
def acceptHi (s0 : Byte) : Nat :=
  if s0.val = 0xED then 0x9F else if s0.val = 0xF4 then 0x8F else 0xBF

/-- Decoding of the first rune of a string, with its width in bytes
(`utf8.DecodeRuneInString`, which the `range` loop over a string follows):
an ill-formed or truncated sequence decodes to `RuneError` with width 1. -/
def decodeRune : GoString → Nat × Nat
  | [] => (RuneError, 0)
  | s0 :: t =>
    if s0.val < 0x80 then (s0.val, 1)
    else if s0.val < 0xC2 then (RuneError, 1)
    else if s0.val < 0xE0 then
      match t with
      | s1 :: _ =>
        if isCont s1 then ((s0.val % 32) * 64 + s1.val % 64, 2) else (RuneError, 1)
      | _ => (RuneError, 1)
    else if s0.val < 0xF0 then
      match t with
      | s1 :: s2 :: _ =>
        if acceptLo s0 ≤ s1.val ∧ s1.val ≤ acceptHi s0 then
          if isCont s2 then
            ((s0.val % 16) * 4096 + (s1.val % 64) * 64 + s2.val % 64, 3)
          else (RuneError, 1)
        else (RuneError, 1)
      | _ => (RuneError, 1)
    else if s0.val < 0xF5 then
      match t with
      | s1 :: s2 :: s3 :: _ =>
        if acceptLo s0 ≤ s1.val ∧ s1.val ≤ acceptHi s0 then
          if isCont s2 then
            if isCont s3 then
              ((s0.val % 8) * 262144 + (s1.val % 64) * 4096 + (s2.val % 64) * 64
                + s3.val % 64, 4)
            else (RuneError, 1)
          else (RuneError, 1)
        else (RuneError, 1)
      | _ => (RuneError, 1)
    else (RuneError, 1)

/-- The runes a `range` loop over the string yields, in order, when the next
`skip` bytes belong to a rune that was already decoded. -/
def runesFrom : Nat → GoString → List Nat
  | _, [] => []
  | skip + 1, _ :: t => runesFrom skip t
  | 0, s0 :: t => (decodeRune (s0 :: t)).1 :: runesFrom ((decodeRune (s0 :: t)).2 - 1) t

/-- The runes of `for _, character := range line`. -/
def runes (line : GoString) : List Nat := runesFrom 0 line

/-- Go's `string(character)`: the UTF-8 encoding of a rune, the encoding of
U+FFFD for a surrogate or a value above U+10FFFF. -/
def encodeRune (r : Nat) : GoString :=
  if r < 0x80 then [byte r]
  else if r < 0x800 then [byte (0xC0 + r / 64), byte (0x80 + r % 64)]
  else if 0x10FFFF < r ∨ (0xD800 ≤ r ∧ r ≤ 0xDFFF) then [byte 0xEF, byte 0xBF, byte 0xBD]
  else if r < 0x10000 then
    [byte (0xE0 + r / 4096), byte (0x80 + r / 64 % 64), byte (0x80 + r % 64)]
  else
    [byte (0xF0 + r / 262144), byte (0x80 + r / 4096 % 64), byte (0x80 + r / 64 % 64),
      byte (0x80 + r % 64)]

/-- The runes of a string encoded again: the bytes a loop that appends
`string(character)` for every rune of `s` builds.  It is `s` itself when `s` is
well-formed UTF-8. -/
def reencode (s : GoString) : GoString := (runes s).flatMap encodeRune

/-- A text (a sequence of Unicode characters) as a Go string: the bytes of its
UTF-8 encoding.  Also used for the string literals of the source. -/
def lit (s : String) : GoString := s.toList.flatMap (fun c => encodeRune c.toNat)

/-- Go's `strings.HasPrefix`. -/
def stringsHasPrefix (s pre : GoString) : Bool := pre.isPrefixOf s

/-- Go's `strings.Contains`: `substr` occurs in `s` at some byte offset. -/
def stringsContains : GoString → GoString → Bool
  | [], substr => substr.isEmpty
  | c :: s, substr => substr.isPrefixOf (c :: s) || stringsContains s substr

/-- Go's `strings.Split(s, "\n")`, given the part of the current piece read so
far: the pieces between the line feeds, of which there is always at least one. -/
def splitLinesFrom (cur : GoString) : GoString → List GoString
  | [] => [cur]
  | c :: s => if c.val = 0x0A then cur :: splitLinesFrom [] s else splitLinesFrom (cur ++ [c]) s

/-- Go's `strings.Split(s, "\n")`. -/
def splitLines (s : GoString) : List GoString := splitLinesFrom [] s

/-! ## The update record and the line parser -/

/-- The fields of `skyline.Update` used by `main.go`. -/
structure Update where
  PackageName : GoString := []
  CurrentVersion : GoString := []
  NewVersion : GoString := []
  Repository : GoString := []
  Security : Bool := false
deriving DecidableEq, Repr

/-- One iteration of the loop of `parsePackageLine`: the `switch state` applied
to one rune of the line. -/
def scanRune (p : Nat × Update) (character : Nat) : Nat × Update :=
  match p.1 with
  | 1 => if character = 0x20 then (2, p.2) else (1, p.2)
  | 2 =>
    if character = 0x20 then (3, p.2)
    else (2, { p.2 with PackageName := p.2.PackageName ++ encodeRune character })
  | 3 => if character = 0x5B then (4, p.2) else (3, p.2)
  | 4 =>
    if character = 0x5D then (5, p.2)
    else (4, { p.2 with CurrentVersion := p.2.CurrentVersion ++ encodeRune character })
  | 5 => if character = 0x28 then (6, p.2) else (5, p.2)
  | 6 =>
    if character = 0x20 then (7, p.2)
    else (6, { p.2 with NewVersion := p.2.NewVersion ++ encodeRune character })
  | 7 =>
    if character = 0x29 then (8, p.2)
    else (7, { p.2 with Repository := p.2.Repository ++ encodeRune character })
  | _ => p

/-- The loop of `parsePackageLine`: final state and record after the scan. -/
def scanLine (line : GoString) : Nat × Update :=
  (runes line).foldl scanRune (1, {})

/-- The `-security` literal tested by `parsePackageLine`. -/
def securityMark : GoString := lit "-security"

/-- Source function `parsePackageLine`. -/
def parsePackageLine (line : GoString) : Update :=
  let toReturn := (scanLine line).2
  if stringsContains toReturn.Repository securityMark then
    { toReturn with Security := true }
  else toReturn

/-- The `Inst` marker literal. -/
def instMark : GoString := lit "Inst"

/-- Source function `isPackageInstall`. -/
def isPackageInstall (line : GoString) : Bool := stringsHasPrefix line instMark

/-- Source function `Filter`: the loop appends `v` when `f(v) && len(v) > 7`. -/
def Filter (vs : List GoString) (f : GoString → Bool) : List GoString :=
  vs.foldl (fun vsf v => if f v && decide (v.length > 7) then vsf ++ [v] else vsf) []

/-- Source function `updateListContains`: some item of the list has the package
name of `item`. -/
def updateListContains : List Update → Update → Bool
  | [], _ => false
  | listItem :: list, item =>
    if listItem.PackageName = item.PackageName then true else updateListContains list item

/-- The part of source function `getAvailableUpdates` after the command
succeeded with output `out`: split into lines, filter, parse each line. -/
def getAvailableUpdates (out : GoString) : List Update :=
  (Filter (splitLines out) isPackageInstall).foldl
    (fun updates line => updates ++ [parsePackageLine line]) []

/-! ## The remote client, the log and the reconciler -/

/-- A Go `error` value other than nil; a result of type `error` is an
`Option GoError`, nil being `none`. -/
abbrev GoError := String

/-- The logrus levels `main.go` logs at. -/
inductive Level
  | Trace
  | Info
  | Error
  | Fatal
deriving DecidableEq, Repr

/-- The value of a log field. -/
inductive FieldValue
  | str (s : GoString)
  | bool (b : Bool)
  | err (e : Option GoError)
deriving DecidableEq, Repr

/-- What a run does that can be observed from outside: the calls to the remote
client, each with the result it returned, and the log entries. -/
inductive Event
  | CreateUpdate (update : Update) (err : Option GoError)
  | GetUpdates (newUpdates : List Update) (err : Option GoError)
  | DeleteUpdate (update : Update) (err : Option GoError)
  | Log (level : Level) (fields : List (String × FieldValue)) (message : String)
deriving DecidableEq, Repr

/-- The three methods of `agent.Client` used by `main.go`, over a remote state
`σ`.  Each returns its Go results and the remote state after the call. -/
structure Client (σ : Type) where
  CreateUpdate : Update → σ → Option GoError × σ
  GetUpdates : σ → (List Update × Option GoError) × σ
  DeleteUpdate : Update → σ → Option GoError × σ

/-- Whether logrus writes an entry of this level.  `main.go` never sets a
level, so the standard logger keeps its default level, info: an entry at trace
level is dropped, entries at info, error and fatal level are written. -/
def enabledAtDefault : Level → Bool
  | Level.Trace => false
  | Level.Info => true
  | Level.Error => true
  | Level.Fatal => true

/-- What a call of the logger adds to the trace: the entry when its level is
enabled, nothing otherwise. -/
def logWritten : Event → List Event
  | Event.Log level fields message =>
    if enabledAtDefault level then [Event.Log level fields message] else []
  | e => [e]

/-- The entry of the `Trace` call in `createUpdates`, made after each call of
`CreateUpdate`. -/
def createdEntry (update : Update) : Event :=
  Event.Log Level.Trace
    [("stage", FieldValue.str (lit "newupdatepost")),
     ("packageName", FieldValue.str update.PackageName),
     ("currentVersion", FieldValue.str update.CurrentVersion),
     ("nextVersion", FieldValue.str update.NewVersion),
     ("security", FieldValue.bool update.Security)]
    "Updated available update on server."

/-- The entry of the `Info` call in `pruneUpdates`, made before each delete. -/
def deletingEntry (update : Update) : Event :=
  Event.Log Level.Info
    [("stage", FieldValue.str (lit "cleaningserverupdates")),
     ("packageName", FieldValue.str update.PackageName)]
    "Deleting update from server"

/-- The entry of the `Error` call in `pruneUpdates`, made when `GetUpdates`
returned an error. -/
def listFailedEntry (err : GoError) : Event :=
  Event.Log Level.Error [("cause", FieldValue.err (some err))]
    "Failed to get list of existing updates from server"

/-- Body of the loop of `createUpdates`: the call, whose result is discarded,
then the logger call at trace level. -/
def createUpdatesStep {σ : Type} (client : Client σ) (acc : σ × List Event) (update : Update) :
    σ × List Event :=
  let r := client.CreateUpdate update acc.1
  (r.2, acc.2 ++ [Event.CreateUpdate update r.1] ++ logWritten (createdEntry update))

/-- Source function `createUpdates`: the remote state after it and the events
it produced. -/
def createUpdates {σ : Type} (client : Client σ) (updates : List Update) (s : σ) :
    σ × List Event :=
  updates.foldl (createUpdatesStep client) (s, [])

/-- Body of the loop of `pruneUpdates`. -/
def pruneUpdatesStep {σ : Type} (client : Client σ) (updates : List Update)
    (acc : σ × List Event) (update : Update) : σ × List Event :=
  if !updateListContains updates update then
    let r := client.DeleteUpdate update acc.1
    (r.2, acc.2 ++ logWritten (deletingEntry update) ++ [Event.DeleteUpdate update r.1])
  else acc

/-- Source function `pruneUpdates`: the remote state after it and the events
it produced.  After an error of `GetUpdates` is logged the function goes on to
the loop over the list that was returned. -/
def pruneUpdates {σ : Type} (client : Client σ) (updates : List Update) (s : σ) :
    σ × List Event :=
  let r := client.GetUpdates s
  let newUpdates := r.1.1
  let err := r.1.2
  let logged : List Event :=
    match err with
    | some e => [Event.GetUpdates newUpdates err] ++ logWritten (listFailedEntry e)
    | none => [Event.GetUpdates newUpdates err]
  newUpdates.foldl (pruneUpdatesStep client updates) (r.2, logged)

/-- How a call of `syncUpdates` ends: it returns, or `log.Fatal` ends the
process. -/
inductive Outcome (σ : Type)
  | returned (s : σ) (events : List Event)
  | exited (s : σ) (events : List Event)
deriving DecidableEq

/-- Source function `syncUpdates`, given the results `(out, err)` of running
`apt-get --just-print upgrade` in `getAvailableUpdates`. -/
def syncUpdates {σ : Type} (client : Client σ) (cmd : GoString × Option GoError) (s : σ) :
    Outcome σ :=
  match cmd.2 with
  | some err => Outcome.exited s (logWritten (Event.Log Level.Fatal [] err))
  | none =>
    let updates := getAvailableUpdates cmd.1
    let created := createUpdates client updates s
    let pruned := pruneUpdates client updates created.1
    Outcome.returned pruned.1
      (logWritten (Event.Log Level.Info [] "Posting new updates to the server") ++ created.2
        ++ logWritten (Event.Log Level.Info [] "Pruning updates from the server") ++ pruned.2)

/-! ## Reading a trace -/

/-- The records `CreateUpdate` was called with, in call order. -/
def createCalls : List Event → List Update
  | [] => []
  | Event.CreateUpdate u _ :: es => u :: createCalls es
  | _ :: es => createCalls es

/-- The records `DeleteUpdate` was called with, in call order. -/
def deleteCalls : List Event → List Update
  | [] => []
  | Event.DeleteUpdate u _ :: es => u :: deleteCalls es
  | _ :: es => deleteCalls es

/-- The results of the calls of `GetUpdates`, in call order. -/
def listCalls : List Event → List (List Update × Option GoError)
  | [] => []
  | Event.GetUpdates l e :: es => (l, e) :: listCalls es
  | _ :: es => listCalls es

/-- The log entries of a trace, in order. -/
def logEntries : List Event → List Event
  | [] => []
  | Event.Log l f m :: es => Event.Log l f m :: logEntries es
  | _ :: es => logEntries es

/-- The remote writes of a trace that returned an error. -/
def failedWrites : List Event → List Event
  | [] => []
  | Event.CreateUpdate u (some e) :: es => Event.CreateUpdate u (some e) :: failedWrites es
  | Event.DeleteUpdate u (some e) :: es => Event.DeleteUpdate u (some e) :: failedWrites es
  | _ :: es => failedWrites es

/-- The number of runes of a string (`utf8.RuneCountInString`): its length in
characters. -/
def runeCount (s : GoString) : Nat := (runes s).length

/-! ## A remote service keyed by package name -/

/-- Modelled from the spec: the remote "create or upsert update" capability of
the inventory service, which is not part of this repository.  The record with
the package name of `u` is replaced by `u`, or `u` is added. -/
def storeUpsert (u : Update) : List Update → List Update
  | [] => [u]
  | x :: xs => if x.PackageName = u.PackageName then u :: xs else x :: storeUpsert u xs

/-- Modelled from the spec: the remote delete capability of the inventory
service, which is not part of this repository.  The records with the package
name of `u` are removed. -/
def storeDelete (u : Update) (s : List Update) : List Update :=
  s.filter (fun x => decide (x.PackageName ≠ u.PackageName))

/-- Modelled from the spec: the inventory service as a store keyed by package
name, every call succeeding: create upserts, list returns all records, delete
removes. -/
def storeClient : Client (List Update) where
  CreateUpdate u s := (none, storeUpsert u s)
  GetUpdates s := ((s, none), s)
  DeleteUpdate u s := (none, storeDelete u s)

/-- The package names a list of records holds. -/
def packageNames (l : List Update) : List GoString := l.map Update.PackageName

/-! ## Sample inputs -/

/-- The install line of the round-trip scenario. -/
def sampleLine : GoString := lit "Inst libfoo [1.0] (1.1 Ubuntu:20.04/focal-security [amd64])"

/-- A record with only a package name. -/
def pkg (name : String) : Update := { PackageName := lit name }

/-- An install line of seven characters whose UTF-8 encoding has nine bytes. -/
def accentedLine : GoString := lit "Inst éé"

/-- An install line of seven bytes. -/
def sevenByteLine : GoString := lit "Inst ab"

/-- The output of a dry run announcing upgrades of the packages `A` and `B`. -/
def sampleOutput : GoString :=
  lit "Reading package lists...\nInst A [1.0] (2.0 focal-security)\nInst B [1.0] (1.1 focal)\nConf A (2.0 focal-security)\n"

/-- The record parsed from the line of package `A` in `sampleOutput`. -/
def localA : Update :=
  { PackageName := lit "A", CurrentVersion := lit "1.0", NewVersion := lit "2.0",
    Repository := lit "focal-security", Security := true }

/-- The record parsed from the line of package `B` in `sampleOutput`. -/
def localB : Update :=
  { PackageName := lit "B", CurrentVersion := lit "1.0", NewVersion := lit "1.1",
    Repository := lit "focal" }

/-- A remote record of package `A` that differs from `localA` in every other
field. -/
def remoteA : Update :=
  { PackageName := lit "A", CurrentVersion := lit "0.9", NewVersion := lit "1.0",
    Repository := lit "focal" }

/-- A remote record of a package `C` that has no local update. -/
def remoteC : Update :=
  { PackageName := lit "C", CurrentVersion := lit "3.0", NewVersion := lit "3.1",
    Repository := lit "focal" }

/-- An install line whose marker is followed by two spaces. -/
def doubleSpaceLine : GoString := lit "Inst  libfoo [1.0] (1.1 focal)"

/-- The install line of the scenario with a missing closing bracket. -/
def unclosedLine : GoString := lit "Inst libfoo [1.0 (1.1 repo)"

/-- An install line up to the `)` that closes the repository. -/
def closedLine : GoString := lit "Inst libfoo [1.0] (1.1 focal)"

/-- Text after the closing `)` with further brackets and a `-security`. -/
def trailingText : GoString := lit " [2.0] (2.1 focal-security) extra"

/-- A name of four bytes, without a space, whose third byte `0xFF` is not
well-formed UTF-8. -/
def illFormedName : GoString := lit "li" ++ byte 0xFF :: lit "b"

/-- An install line with every delimiter in place and `illFormedName` as
package name. -/
def illFormedNameLine : GoString :=
  lit "Inst" ++ lit " " ++ illFormedName ++ lit " " ++ lit "" ++ lit "[" ++ lit "1.0" ++ lit "]"
    ++ lit " " ++ lit "(" ++ lit "1.1" ++ lit " " ++ lit "focal" ++ lit ")" ++ lit ""

/-- The rest of a line after `[`: two bytes, without a `]`, the second of which,
`0xFF`, is not well-formed UTF-8. -/
def illFormedRest : GoString := lit "1" ++ [byte 0xFF]

/-- An install line with no closing bracket and `illFormedRest` after the `[`. -/
def illFormedRestLine : GoString :=
  lit "Inst" ++ lit " " ++ lit "p" ++ lit " " ++ lit "" ++ lit "[" ++ illFormedRest

/-- A line of two bytes, a space and the byte `0xFF`, which is not well-formed
UTF-8. -/
def illFormedLine : GoString := [byte 0x20, byte 0xFF]

/-- The UTF-8 encoding of U+FFFD, the replacement character. -/
def replacementBytes : GoString := [byte 0xEF, byte 0xBF, byte 0xBD]

/-- A client over no remote state whose writes all fail, and whose list call
returns `listed` together with `listErr`. -/
def failingClient (listed : List Update) (listErr : Option GoError) : Client Unit where
  CreateUpdate _ s := (some "create: connection refused", s)
  GetUpdates s := ((listed, listErr), s)
  DeleteUpdate _ s := (some "delete: connection refused", s)

/-- A client over no remote state whose writes all succeed, and whose list call
returns `listed` together with `listErr`. -/
def succeedingClient (listed : List Update) (listErr : Option GoError) : Client Unit where
  CreateUpdate _ s := (none, s)
  GetUpdates s := ((listed, listErr), s)
  DeleteUpdate _ s := (none, s)

end Agent

/-! # Properties -/

namespace Agent

/-! ## Decoding and encoding of runes -/

theorem isCont_ascii {a : Byte} (ha : a.val < 0x80) : isCont a = false := by
  simp [isCont]; omega

theorem acceptLo_ge (s0 : Byte) : 0x80 ≤ acceptLo s0 := by
  unfold acceptLo; split_ifs <;> omega

theorem decodeRune_ascii (a : Byte) (t : GoString) (ha : a.val < 0x80) :
    decodeRune (a :: t) = (a.val, 1) := by
  simp [decodeRune, ha]

theorem decodeRune_append_ascii (b a : Byte) (m rest : GoString) (ha : a.val < 0x80) :
    decodeRune (b :: (m ++ a :: rest)) = decodeRune (b :: m) := by
  have h1 := isCont_ascii ha
  have h2 : ∀ s0 : Byte, ¬ (acceptLo s0 ≤ a.val ∧ a.val ≤ acceptHi s0) := by
    intro s0 h; have := acceptLo_ge s0; omega
  rcases m with _ | ⟨s1, _ | ⟨s2, _ | ⟨s3, m⟩⟩⟩ <;>
  rcases rest with _ | ⟨r1, _ | ⟨r2, rest⟩⟩ <;>
    simp [decodeRune, h1, h2]

theorem decodeRune_width_le (b : Byte) (m : GoString) :
    1 ≤ (decodeRune (b :: m)).2 ∧ (decodeRune (b :: m)).2 ≤ m.length + 1 := by
  rcases m with _ | ⟨s1, _ | ⟨s2, _ | ⟨s3, m⟩⟩⟩ <;>
    simp only [decodeRune] <;> split_ifs <;> simp

theorem decodeRune_ge (b : Byte) (m : GoString) (hb : 0x80 ≤ b.val) :
    0x80 ≤ (decodeRune (b :: m)).1 := by
  have hb' : ¬ b.val < 0x80 := by omega
  rcases m with _ | ⟨s1, _ | ⟨s2, _ | ⟨s3, m⟩⟩⟩ <;>
    simp only [decodeRune, RuneError, hb', if_false] <;> split_ifs <;> dsimp only
  all_goals (try omega)
  all_goals (simp only [acceptLo, acceptHi] at *; split_ifs at * <;> omega)

theorem decodeRune_ascii_inv (b : Byte) (m : GoString) (h : (decodeRune (b :: m)).1 < 0x80) :
    b.val < 0x80 := by
  by_contra hb
  have := decodeRune_ge b m (by omega)
  omega

theorem runesFrom_append_ascii (a : Byte) (ha : a.val < 0x80) (rest : GoString) :
    ∀ (m : GoString) (k : Nat), k ≤ m.length →
      runesFrom k (m ++ a :: rest) = runesFrom k m ++ a.val :: runes rest := by
  intro m
  induction m with
  | nil =>
    intro k hk
    have hk0 : k = 0 := by simpa using hk
    subst hk0
    simp [runesFrom, runes, decodeRune_ascii a rest ha]
  | cons b m ih =>
    intro k hk
    cases k with
    | zero =>
      have hw := decodeRune_width_le b m
      change runesFrom 0 (b :: (m ++ a :: rest)) = runesFrom 0 (b :: m) ++ a.val :: runes rest
      simp only [runesFrom, decodeRune_append_ascii b a m rest ha]
      rw [ih _ (by omega)]
      rfl
    | succ k =>
      change runesFrom (k + 1) (b :: (m ++ a :: rest)) = runesFrom (k + 1) (b :: m) ++ a.val :: runes rest
      simp only [runesFrom]
      exact ih k (by simpa using hk)

theorem runes_append_ascii (a : Byte) (ha : a.val < 0x80) (m rest : GoString) :
    runes (m ++ a :: rest) = runes m ++ a.val :: runes rest :=
  runesFrom_append_ascii a ha rest m 0 (Nat.zero_le _)

theorem mem_runesFrom_ascii :
    ∀ (s : GoString) (k r : Nat), r ∈ runesFrom k s → r < 0x80 → ∃ b ∈ s, b.val = r := by
  intro s
  induction s with
  | nil => intro k r h; simp [runesFrom] at h
  | cons b s ih =>
    intro k r h hr
    cases k with
    | zero =>
      simp only [runesFrom, List.mem_cons] at h
      rcases h with h | h
      · have hb := decodeRune_ascii_inv b s (by omega)
        rw [decodeRune_ascii b s hb] at h
        exact ⟨b, List.mem_cons_self _ _, h.symm⟩
      · obtain ⟨c, hc, hcr⟩ := ih _ r h hr
        exact ⟨c, List.mem_cons_of_mem _ hc, hcr⟩
    | succ k =>
      simp only [runesFrom] at h
      obtain ⟨c, hc, hcr⟩ := ih _ r h hr
      exact ⟨c, List.mem_cons_of_mem _ hc, hcr⟩

theorem length_runesFrom_le : ∀ (s : GoString) (k : Nat), (runesFrom k s).length ≤ s.length := by
  intro s
  induction s with
  | nil => intro k; simp [runesFrom]
  | cons b s ih =>
    intro k
    cases k with
    | zero => simp only [runesFrom, List.length_cons]; have := ih ((decodeRune (b :: s)).2 - 1); omega
    | succ k => simp only [runesFrom, List.length_cons]; have := ih k; omega

theorem runesFrom_length_append : ∀ (p rest : GoString),
    runesFrom p.length (p ++ rest) = runes rest := by
  intro p
  induction p with
  | nil => intro rest; rfl
  | cons b p ih => intro rest; simpa [runesFrom] using ih rest

theorem byte_val (n : Nat) : (byte n).val = n % 256 := rfl

theorem decodeRune_two (b0 b1 : Byte) (rest : GoString) (h0 : 0xC2 ≤ b0.val ∧ b0.val < 0xE0)
    (h1 : 0x80 ≤ b1.val ∧ b1.val ≤ 0xBF) :
    decodeRune (b0 :: b1 :: rest) = ((b0.val % 32) * 64 + b1.val % 64, 2) := by
  have c1 : isCont b1 = true := by simp [isCont]; omega
  have n1 : ¬ b0.val < 0x80 := by omega
  have n2 : ¬ b0.val < 0xC2 := by omega
  simp only [decodeRune, n1, n2, h0.2, c1, if_true, if_false]

theorem decodeRune_three (b0 b1 b2 : Byte) (rest : GoString)
    (h0 : 0xE0 ≤ b0.val ∧ b0.val < 0xF0)
    (h1 : acceptLo b0 ≤ b1.val ∧ b1.val ≤ acceptHi b0)
    (h2 : 0x80 ≤ b2.val ∧ b2.val ≤ 0xBF) :
    decodeRune (b0 :: b1 :: b2 :: rest)
      = ((b0.val % 16) * 4096 + (b1.val % 64) * 64 + b2.val % 64, 3) := by
  have c2 : isCont b2 = true := by simp [isCont]; omega
  have n1 : ¬ b0.val < 0x80 := by omega
  have n2 : ¬ b0.val < 0xC2 := by omega
  have n3 : ¬ b0.val < 0xE0 := by omega
  simp only [decodeRune, n1, n2, n3, h0.2, h1, c2, if_true, if_false, and_self]

theorem decodeRune_four (b0 b1 b2 b3 : Byte) (rest : GoString)
    (h0 : 0xF0 ≤ b0.val ∧ b0.val < 0xF5)
    (h1 : acceptLo b0 ≤ b1.val ∧ b1.val ≤ acceptHi b0)
    (h2 : 0x80 ≤ b2.val ∧ b2.val ≤ 0xBF) (h3 : 0x80 ≤ b3.val ∧ b3.val ≤ 0xBF) :
    decodeRune (b0 :: b1 :: b2 :: b3 :: rest)
      = ((b0.val % 8) * 262144 + (b1.val % 64) * 4096 + (b2.val % 64) * 64 + b3.val % 64, 4) := by
  have c2 : isCont b2 = true := by simp [isCont]; omega
  have c3 : isCont b3 = true := by simp [isCont]; omega
  have n1 : ¬ b0.val < 0x80 := by omega
  have n2 : ¬ b0.val < 0xC2 := by omega
  have n3 : ¬ b0.val < 0xE0 := by omega
  have n4 : ¬ b0.val < 0xF0 := by omega
  simp only [decodeRune, n1, n2, n3, n4, h0.2, h1, c2, c3, if_true, if_false, and_self]

theorem decodeRune_encodeRune (r : Nat) (hr : r < 0xD800 ∨ (0xDFFF < r ∧ r < 0x110000))
    (rest : GoString) :
    decodeRune (encodeRune r ++ rest) = (r, (encodeRune r).length) := by
  unfold encodeRune
  split_ifs with h1 h2 h3 h4
  · have hb : (byte r).val < 0x80 := by rw [byte_val]; omega
    rw [List.singleton_append, decodeRune_ascii _ _ hb, byte_val]
    simp only [List.length_singleton, Prod.mk.injEq, and_true]; omega
  · rw [List.cons_append, List.singleton_append, decodeRune_two _ _ _
      (by rw [byte_val]; omega) (by rw [byte_val]; omega)]
    simp only [byte_val, List.length_cons, List.length_nil, Prod.mk.injEq, and_true]; omega
  · omega
  · rw [List.cons_append, List.cons_append, List.singleton_append, decodeRune_three _ _ _ _
      (by rw [byte_val]; omega)
      (by simp only [acceptLo, acceptHi, byte_val]; split_ifs <;> omega)
      (by rw [byte_val]; omega)]
    simp only [byte_val, List.length_cons, List.length_nil, Prod.mk.injEq, and_true]; omega
  · rw [List.cons_append, List.cons_append, List.cons_append, List.singleton_append,
      decodeRune_four _ _ _ _ _
      (by rw [byte_val]; omega)
      (by simp only [acceptLo, acceptHi, byte_val]; split_ifs <;> omega)
      (by rw [byte_val]; omega) (by rw [byte_val]; omega)]
    simp only [byte_val, List.length_cons, List.length_nil, Prod.mk.injEq, and_true]; omega

theorem char_valid (c : Char) : c.toNat < 0xD800 ∨ (0xDFFF < c.toNat ∧ c.toNat < 0x110000) :=
  c.valid

theorem runes_encodeRune_append (r : Nat) (hr : r < 0xD800 ∨ (0xDFFF < r ∧ r < 0x110000))
    (rest : GoString) : runes (encodeRune r ++ rest) = r :: runes rest := by
  have hd := decodeRune_encodeRune r hr rest
  rcases he : encodeRune r with _ | ⟨b0, tl⟩
  · exfalso
    have : (encodeRune r).length ≠ 0 := by unfold encodeRune; split_ifs <;> simp
    exact this (by rw [he]; rfl)
  · rw [he] at hd
    change runesFrom 0 (b0 :: (tl ++ rest)) = r :: runes rest
    change decodeRune (b0 :: (tl ++ rest)) = (r, tl.length + 1) at hd
    simp only [runesFrom, hd, Nat.add_sub_cancel]
    rw [runesFrom_length_append]

/-- The runes of an encoded text are the code points of its characters. -/
theorem runes_lit_append (s : String) (rest : GoString) :
    runes (lit s ++ rest) = s.toList.map Char.toNat ++ runes rest := by
  unfold lit
  induction s.toList with
  | nil => rfl
  | cons c cs ih =>
    simp only [List.flatMap_cons, List.append_assoc, List.map_cons, List.cons_append]
    rw [runes_encodeRune_append _ (char_valid c), ih]

theorem foldl_scan1 (xs : List Nat) (u : Update) (h : 0x20 ∉ xs) :
    xs.foldl scanRune (1, u) = (1, u) := by
  induction xs with
  | nil => rfl
  | cons x xs ih =>
    have hx : x ≠ 0x20 := fun e => h (e ▸ List.mem_cons_self _ _)
    have hxs : 0x20 ∉ xs := fun e => h (List.mem_cons_of_mem _ e)
    simp only [List.foldl_cons, scanRune, hx, if_false]
    exact ih hxs

theorem foldl_scan2 (xs : List Nat) (h : 0x20 ∉ xs) : ∀ u : Update,
    xs.foldl scanRune (2, u)
      = (2, { u with PackageName := u.PackageName ++ xs.flatMap encodeRune }) := by
  induction xs with
  | nil => intro u; simp
  | cons x xs ih =>
    intro u
    have hx : x ≠ 0x20 := fun e => h (e ▸ List.mem_cons_self _ _)
    have hxs : 0x20 ∉ xs := fun e => h (List.mem_cons_of_mem _ e)
    simp only [List.foldl_cons, scanRune, hx, if_false]
    rw [ih hxs]
    simp


theorem foldl_scan3 (xs : List Nat) (u : Update) (h : 0x5B ∉ xs) :
    xs.foldl scanRune (3, u) = (3, u) := by
  induction xs with
  | nil => rfl
  | cons x xs ih =>
    have hx : x ≠ 0x5B := fun e => h (e ▸ List.mem_cons_self _ _)
    have hxs : 0x5B ∉ xs := fun e => h (List.mem_cons_of_mem _ e)
    simp only [List.foldl_cons, scanRune, hx, if_false]
    exact ih hxs

theorem foldl_scan4 (xs : List Nat) (h : 0x5D ∉ xs) : ∀ u : Update,
    xs.foldl scanRune (4, u)
      = (4, { u with CurrentVersion := u.CurrentVersion ++ xs.flatMap encodeRune }) := by
  induction xs with
  | nil => intro u; simp
  | cons x xs ih =>
    intro u
    have hx : x ≠ 0x5D := fun e => h (e ▸ List.mem_cons_self _ _)
    have hxs : 0x5D ∉ xs := fun e => h (List.mem_cons_of_mem _ e)
    simp only [List.foldl_cons, scanRune, hx, if_false]
    rw [ih hxs]
    simp

theorem foldl_scan5 (xs : List Nat) (u : Update) (h : 0x28 ∉ xs) :
    xs.foldl scanRune (5, u) = (5, u) := by
  induction xs with
  | nil => rfl
  | cons x xs ih =>
    have hx : x ≠ 0x28 := fun e => h (e ▸ List.mem_cons_self _ _)
    have hxs : 0x28 ∉ xs := fun e => h (List.mem_cons_of_mem _ e)
    simp only [List.foldl_cons, scanRune, hx, if_false]
    exact ih hxs

theorem foldl_scan6 (xs : List Nat) (h : 0x20 ∉ xs) : ∀ u : Update,
    xs.foldl scanRune (6, u)
      = (6, { u with NewVersion := u.NewVersion ++ xs.flatMap encodeRune }) := by
  induction xs with
  | nil => intro u; simp
  | cons x xs ih =>
    intro u
    have hx : x ≠ 0x20 := fun e => h (e ▸ List.mem_cons_self _ _)
    have hxs : 0x20 ∉ xs := fun e => h (List.mem_cons_of_mem _ e)
    simp only [List.foldl_cons, scanRune, hx, if_false]
    rw [ih hxs]
    simp

theorem foldl_scan7 (xs : List Nat) (h : 0x29 ∉ xs) : ∀ u : Update,
    xs.foldl scanRune (7, u)
      = (7, { u with Repository := u.Repository ++ xs.flatMap encodeRune }) := by
  induction xs with
  | nil => intro u; simp
  | cons x xs ih =>
    intro u
    have hx : x ≠ 0x29 := fun e => h (e ▸ List.mem_cons_self _ _)
    have hxs : 0x29 ∉ xs := fun e => h (List.mem_cons_of_mem _ e)
    simp only [List.foldl_cons, scanRune, hx, if_false]
    rw [ih hxs]
    simp

theorem foldl_scan8 (xs : List Nat) (u : Update) :
    xs.foldl scanRune (8, u) = (8, u) := by
  induction xs with
  | nil => rfl
  | cons x xs ih => simpa only [List.foldl_cons, scanRune] using ih

/-- The scan of a line with every delimiter in place ends in state 8 with the
four pieces between the delimiters, re-encoded. -/
theorem scanLine_delimited (m n g c h v r t : GoString)
    (hm : 0x20 ∉ runes m) (hn : 0x20 ∉ runes n) (hg : 0x5B ∉ runes g) (hc : 0x5D ∉ runes c)
    (hh : 0x28 ∉ runes h) (hv : 0x20 ∉ runes v) (hr : 0x29 ∉ runes r) :
    scanLine (m ++ byte 0x20 :: (n ++ byte 0x20 :: (g ++ byte 0x5B :: (c ++ byte 0x5D ::
      (h ++ byte 0x28 :: (v ++ byte 0x20 :: (r ++ byte 0x29 :: t)))))))
      = (8, { PackageName := reencode n, CurrentVersion := reencode c,
              NewVersion := reencode v, Repository := reencode r, Security := false }) := by
  unfold scanLine
  rw [runes_append_ascii _ (by decide), runes_append_ascii _ (by decide),
    runes_append_ascii _ (by decide), runes_append_ascii _ (by decide),
    runes_append_ascii _ (by decide), runes_append_ascii _ (by decide),
    runes_append_ascii _ (by decide)]
  simp only [List.foldl_append, List.foldl_cons]
  rw [foldl_scan1 _ _ hm]
  have s1 : ∀ u : Update, scanRune (1, u) (byte 0x20).val = (2, u) := fun u => rfl
  have s2 : ∀ u : Update, scanRune (2, u) (byte 0x20).val = (3, u) := fun u => rfl
  have s3 : ∀ u : Update, scanRune (3, u) (byte 0x5B).val = (4, u) := fun u => rfl
  have s4 : ∀ u : Update, scanRune (4, u) (byte 0x5D).val = (5, u) := fun u => rfl
  have s5 : ∀ u : Update, scanRune (5, u) (byte 0x28).val = (6, u) := fun u => rfl
  have s6 : ∀ u : Update, scanRune (6, u) (byte 0x20).val = (7, u) := fun u => rfl
  have s7 : ∀ u : Update, scanRune (7, u) (byte 0x29).val = (8, u) := fun u => rfl
  rw [s1, foldl_scan2 _ hn, s2, foldl_scan3 _ _ hg, s3, foldl_scan4 _ hc, s4,
    foldl_scan5 _ _ hh, s5, foldl_scan6 _ hv, s6, foldl_scan7 _ hr, s7, foldl_scan8]
  simp [reencode]


theorem not_mem_runes_of_not_mem (m : GoString) (r : Nat) (hr : r < 0x80) (h : byte r ∉ m) :
    r ∉ runes m := by
  intro hmem
  obtain ⟨b, hb, hbr⟩ := mem_runesFrom_ascii m 0 r hmem hr
  have : b = byte r := Fin.ext (by rw [byte_val]; omega)
  exact h (this ▸ hb)

theorem lit_append (a b : String) : lit (a ++ b) = lit a ++ lit b := by
  simp [lit, String.toList]

theorem runes_lit (s : String) : runes (lit s) = s.toList.map Char.toNat := by
  have h := runes_lit_append s []
  rw [List.append_nil] at h
  rw [h]
  exact List.append_nil _

theorem reencode_lit (s : String) : reencode (lit s) = lit s := by
  rw [reencode, runes_lit]
  unfold lit
  induction s.toList with
  | nil => rfl
  | cons c cs ih => simp only [List.map_cons, List.flatMap_cons, ih]

theorem not_mem_runes_lit (s : String) (c : Char) (h : c ∉ s.toList) :
    c.toNat ∉ runes (lit s) := by
  rw [runes_lit]
  intro hmem
  obtain ⟨d, hd, hdc⟩ := List.mem_map.1 hmem
  have : d = c := by rw [← Char.ofNat_toNat d, ← Char.ofNat_toNat c, hdc]
  exact h (this ▸ hd)

set_option maxRecDepth 100000 in
/-- C1, as stated, fails: `illFormedNameLine` has the form of the claim, with
the name `illFormedName`, the bytes `l`, `i`, `0xFF`, `b`, which holds no space;
the `range` loop reads the byte `0xFF` as U+FFFD, so the package name returned
is `li`, the three bytes of U+FFFD, `b`, and not the name in the line. -/
theorem parsePackageLine_illFormed_name_counterexample :
    byte 0x20 ∉ lit "Inst" ∧ byte 0x20 ∉ illFormedName ∧ byte 0x5B ∉ lit "" ∧
      byte 0x5D ∉ lit "1.0" ∧ byte 0x28 ∉ lit " " ∧ byte 0x20 ∉ lit "1.1" ∧
      byte 0x29 ∉ lit "focal" ∧
      (parsePackageLine illFormedNameLine).PackageName = lit "li" ++ replacementBytes ++ lit "b" ∧
      (parsePackageLine illFormedNameLine).PackageName ≠ illFormedName := by
  decide

/-- C1, amended: on a line marker word, space, name, space, text, `[`,
version, `]`, text, `(`, version, space, repository, `)`, rest, where no piece
contains the delimiter that ends it and the name, the two versions and the
repository are well-formed UTF-8 (encodings of texts), `parsePackageLine`
returns exactly the embedded name, current version, new version and repository,
and the security flag says whether the repository contains `-security`.  The
marker word, the texts between the fields and the rest may be any bytes. -/
theorem parsePackageLine_wellFormed (m g h t : GoString) (n c v r : String)
    (hm : byte 0x20 ∉ m) (hn : ' ' ∉ n.toList) (hg : byte 0x5B ∉ g) (hc : ']' ∉ c.toList)
    (hh : byte 0x28 ∉ h) (hv : ' ' ∉ v.toList) (hr : ')' ∉ r.toList) :
    parsePackageLine (m ++ lit " " ++ lit n ++ lit " " ++ g ++ lit "[" ++ lit c ++ lit "]" ++ h
        ++ lit "(" ++ lit v ++ lit " " ++ lit r ++ lit ")" ++ t)
      = { PackageName := lit n, CurrentVersion := lit c, NewVersion := lit v,
          Repository := lit r, Security := stringsContains (lit r) securityMark } := by
  have e : m ++ lit " " ++ lit n ++ lit " " ++ g ++ lit "[" ++ lit c ++ lit "]" ++ h
        ++ lit "(" ++ lit v ++ lit " " ++ lit r ++ lit ")" ++ t
      = m ++ byte 0x20 :: (lit n ++ byte 0x20 :: (g ++ byte 0x5B :: (lit c ++ byte 0x5D ::
          (h ++ byte 0x28 :: (lit v ++ byte 0x20 :: (lit r ++ byte 0x29 :: t)))))) := by
    have e1 : lit " " = [byte 0x20] := by decide
    have e2 : lit "[" = [byte 0x5B] := by decide
    have e3 : lit "]" = [byte 0x5D] := by decide
    have e4 : lit "(" = [byte 0x28] := by decide
    have e5 : lit ")" = [byte 0x29] := by decide
    simp only [e1, e2, e3, e4, e5, List.append_assoc, List.singleton_append,
      List.cons_append, List.nil_append]
  unfold parsePackageLine
  rw [e, scanLine_delimited _ _ _ _ _ _ _ _ (not_mem_runes_of_not_mem m 0x20 (by decide) hm)
    (not_mem_runes_lit n ' ' hn) (not_mem_runes_of_not_mem g 0x5B (by decide) hg)
    (not_mem_runes_lit c ']' hc) (not_mem_runes_of_not_mem h 0x28 (by decide) hh)
    (not_mem_runes_lit v ' ' hv) (not_mem_runes_lit r ')' hr)]
  simp only [reencode_lit]
  cases hs : stringsContains (lit r) securityMark <;> simp

set_option maxRecDepth 100000 in
theorem parsePackageLine_wellFormed_witness :
    parsePackageLine sampleLine
      = { PackageName := lit "libfoo", CurrentVersion := lit "1.0", NewVersion := lit "1.1",
          Repository := lit "Ubuntu:20.04/focal-security [amd64]", Security := true } :=
  parsePackageLine_wellFormed (lit "Inst") (lit "") (lit " ") (lit "") "libfoo" "1.0" "1.1"
    "Ubuntu:20.04/focal-security [amd64]" (by decide) (by decide) (by decide) (by decide)
    (by decide) (by decide) (by decide)

/-! ## The security flag -/

theorem stringsContains_iff (s substr : GoString) :
    stringsContains s substr = true ↔ substr <:+: s := by
  induction s with
  | nil => simp [stringsContains, List.isEmpty_iff]
  | cons c s ih =>
    simp only [stringsContains, Bool.or_eq_true, List.isPrefixOf_iff_prefix, ih,
      List.infix_cons_iff]

theorem scanRune_security (p : Nat × Update) (x : Nat) :
    (scanRune p x).2.Security = p.2.Security := by
  unfold scanRune
  split <;> (try split_ifs) <;> rfl

theorem foldl_scanRune_security (xs : List Nat) :
    ∀ p : Nat × Update, (xs.foldl scanRune p).2.Security = p.2.Security := by
  induction xs with
  | nil => intro p; rfl
  | cons x xs ih => intro p; rw [List.foldl_cons, ih, scanRune_security]

theorem scanLine_security (line : GoString) : (scanLine line).2.Security = false :=
  foldl_scanRune_security (runes line) (1, {})

/-- The repository field is the one accumulated by the scan. -/
theorem parsePackageLine_repository (line : GoString) :
    (parsePackageLine line).Repository = (scanLine line).2.Repository := by
  unfold parsePackageLine
  dsimp only
  split_ifs <;> rfl

/-- C2: for every input line, the record returned by `parsePackageLine` has
`Security = true` if and only if its repository field contains the bytes of
`-security` at some position. -/
theorem parsePackageLine_security_iff (line : GoString) :
    (parsePackageLine line).Security = true
      ↔ lit "-security" <:+: (parsePackageLine line).Repository := by
  rw [parsePackageLine_repository, ← stringsContains_iff]
  unfold parsePackageLine
  dsimp only
  by_cases hs : stringsContains (scanLine line).2.Repository securityMark = true
  · rw [if_pos hs]
    exact ⟨fun _ => hs, fun _ => rfl⟩
  · rw [if_neg hs, scanLine_security]
    exact ⟨fun h => absurd h (by decide), fun h => absurd h hs⟩


/-! ## Install lines and the filter -/

theorem Filter_foldl (f : GoString → Bool) (vs : List GoString) : ∀ acc : List GoString,
    vs.foldl (fun vsf v => if f v && decide (v.length > 7) then vsf ++ [v] else vsf) acc
      = acc ++ vs.filter (fun v => f v && decide (v.length > 7)) := by
  induction vs with
  | nil => intro acc; simp
  | cons v vs ih =>
    intro acc
    rw [List.foldl_cons, ih]
    by_cases hv : (f v && decide (v.length > 7)) = true
    · simp [hv, List.filter_cons]
    · simp [hv, List.filter_cons]

/-- The loop of `Filter` keeps, in order, the strings on which `f` holds and
whose length in bytes exceeds 7. -/
theorem Filter_eq_filter (vs : List GoString) (f : GoString → Bool) :
    Filter vs f = vs.filter (fun v => f v && decide (v.length > 7)) := by
  unfold Filter
  rw [Filter_foldl]
  rfl

theorem mem_Filter (vs : List GoString) (f : GoString → Bool) (l : GoString) :
    l ∈ Filter vs f ↔ l ∈ vs ∧ f l = true ∧ 7 < l.length := by
  rw [Filter_eq_filter, List.mem_filter]
  simp

theorem runes_cons_ascii (a : Byte) (t : GoString) (ha : a.val < 0x80) :
    runes (a :: t) = a.val :: runes t := by
  simp only [runes, runesFrom, decodeRune_ascii a t ha]

theorem runes_cons_ascii_inv (s : GoString) (r : Nat) (rs : List Nat) (hr : r < 0x80)
    (h : runes s = r :: rs) : ∃ t, s = byte r :: t ∧ rs = runes t := by
  cases s with
  | nil => simp [runes, runesFrom] at h
  | cons b t =>
    have h0 : (decodeRune (b :: t)).1 = r := by
      have := congrArg List.head? h
      simpa [runes, runesFrom] using this
    have hb : b.val < 0x80 := decodeRune_ascii_inv b t (by omega)
    rw [runes_cons_ascii b t hb] at h
    have hbr : b.val = r := (List.cons.inj h).1
    refine ⟨t, ?_, ((List.cons.inj h).2).symm⟩
    have : b = byte r := Fin.ext (by rw [byte_val]; omega)
    rw [this]

theorem runeCount_le_length (s : GoString) : runeCount s ≤ s.length :=
  length_runesFrom_le s 0

theorem isPackageInstall_iff_marker (line : GoString) :
    isPackageInstall line = true ↔ lit "Inst" <+: line := by
  unfold isPackageInstall stringsHasPrefix instMark
  exact List.isPrefixOf_iff_prefix

theorem isPackageInstall_iff_runes (line : GoString) :
    isPackageInstall line = true ↔ (runes line).take 4 = runes (lit "Inst") := by
  have hI : lit "Inst" = [byte 0x49, byte 0x6E, byte 0x73, byte 0x74] := by decide
  have hR : runes (lit "Inst") = [0x49, 0x6E, 0x73, 0x74] := by decide
  rw [isPackageInstall_iff_marker, hR, hI]
  constructor
  · rintro ⟨t, rfl⟩
    simp only [List.cons_append, List.nil_append]
    rw [runes_cons_ascii _ _ (by decide), runes_cons_ascii _ _ (by decide),
      runes_cons_ascii _ _ (by decide), runes_cons_ascii _ _ (by decide)]
    rfl
  · intro h
    rcases h0 : runes line with _ | ⟨r0, _ | ⟨r1, _ | ⟨r2, _ | ⟨r3, rs⟩⟩⟩⟩ <;> rw [h0] at h <;>
      simp at h
    obtain ⟨e0, e1, e2, e3⟩ := h
    subst e0 e1 e2 e3
    obtain ⟨t0, ht0, hr0⟩ := runes_cons_ascii_inv line _ _ (by decide) h0
    obtain ⟨t1, ht1, hr1⟩ := runes_cons_ascii_inv t0 _ _ (by decide) hr0.symm
    obtain ⟨t2, ht2, hr2⟩ := runes_cons_ascii_inv t1 _ _ (by decide) hr1.symm
    obtain ⟨t3, ht3, _⟩ := runes_cons_ascii_inv t2 _ _ (by decide) hr2.symm
    exact ⟨t3, by rw [ht0, ht1, ht2, ht3]; rfl⟩

/-- C3: `isPackageInstall` is true iff the first four characters of the line
are `Inst`; `Filter` with `isPackageInstall` returns a sublist of its input
(order kept) whose elements are all install lines, it excludes every line that
is not an install line, and it keeps every occurrence of an install line of
more than 7 characters. -/
theorem Filter_isPackageInstall (lines : List GoString) :
    (∀ line, isPackageInstall line = true ↔ (runes line).take 4 = runes (lit "Inst")) ∧
    List.Sublist (Filter lines isPackageInstall) lines ∧
    (∀ l ∈ Filter lines isPackageInstall, isPackageInstall l = true) ∧
    (∀ l, isPackageInstall l = false → l ∉ Filter lines isPackageInstall) ∧
    (∀ l, isPackageInstall l = true → 7 < runeCount l →
      (Filter lines isPackageInstall).count l = lines.count l) := by
  refine ⟨isPackageInstall_iff_runes, ?_, ?_, ?_, ?_⟩
  · rw [Filter_eq_filter]
    exact List.filter_sublist _
  · intro l hl
    exact ((mem_Filter _ _ _).1 hl).2.1
  · intro l hl hmem
    rw [((mem_Filter _ _ _).1 hmem).2.1] at hl
    exact absurd hl (by decide)
  · intro l hl hlen
    have hb := runeCount_le_length l
    rw [Filter_eq_filter]
    exact List.count_filter (by simp [hl]; omega)


set_option maxRecDepth 100000 in
/-- C4, as stated, fails: `accentedLine` (`Inst éé`) has seven characters, fewer
than eight, starts with the marker, and `Filter` keeps it, because its length
in bytes is nine. -/
theorem Filter_short_line_counterexample :
    runeCount accentedLine < 8 ∧ isPackageInstall accentedLine = true ∧
      accentedLine ∈ Filter [accentedLine] isPackageInstall := by
  decide

/-- C4, amended: every line shorter than 8 bytes is excluded by `Filter` with
`isPackageInstall`, whatever bytes it holds and even if it starts with `Inst`. -/
theorem Filter_excludes_short (lines : List GoString) (l : GoString) (h : l.length < 8) :
    l ∉ Filter lines isPackageInstall := by
  intro hmem
  have := ((mem_Filter _ _ _).1 hmem).2.2
  omega

set_option maxRecDepth 100000 in
theorem Filter_excludes_short_witness :
    isPackageInstall sevenByteLine = true ∧
      sevenByteLine ∉ Filter [sevenByteLine] isPackageInstall :=
  ⟨by decide, Filter_excludes_short [sevenByteLine] sevenByteLine (by decide)⟩

/-! ## The reconciler -/

theorem updateListContains_iff (list : List Update) (item : Update) :
    updateListContains list item = true ↔ ∃ l ∈ list, l.PackageName = item.PackageName := by
  induction list with
  | nil => simp [updateListContains]
  | cons x xs ih =>
    unfold updateListContains
    by_cases hx : x.PackageName = item.PackageName
    · simp [hx]
    · simp [hx, ih]

theorem deleteCalls_append (a b : List Event) :
    deleteCalls (a ++ b) = deleteCalls a ++ deleteCalls b := by
  induction a with
  | nil => rfl
  | cons e a ih => cases e <;> simp [deleteCalls, ih]

theorem deleteCalls_pruneStep {σ : Type} (client : Client σ) (updates R : List Update) :
    ∀ acc : σ × List Event,
      deleteCalls (R.foldl (pruneUpdatesStep client updates) acc).2
        = deleteCalls acc.2 ++ R.filter (fun r => !updateListContains updates r) := by
  induction R with
  | nil => intro acc; simp
  | cons r R ih =>
    intro acc
    rw [List.foldl_cons, ih]
    unfold pruneUpdatesStep
    by_cases hr : updateListContains updates r = true
    · simp [hr]
    · simp [hr, deleteCalls_append, deleteCalls, deletingEntry]

/-- The records `pruneUpdates` deletes are the listed records that
`updateListContains` does not find among the local ones, whether or not the list
call returned an error. -/
theorem deleteCalls_pruneUpdates {σ : Type} (client : Client σ) (updates : List Update) (s : σ) :
    deleteCalls (pruneUpdates client updates s).2
      = (client.GetUpdates s).1.1.filter (fun r => !updateListContains updates r) := by
  unfold pruneUpdates
  dsimp only
  rw [deleteCalls_pruneStep]
  cases (client.GetUpdates s).1.2 <;> simp [deleteCalls, listFailedEntry]

theorem updateListContains_eq_false_iff (list : List Update) (item : Update) :
    updateListContains list item = false ↔ item.PackageName ∉ packageNames list := by
  rw [← Bool.not_eq_true, updateListContains_iff, packageNames, List.mem_map]

/-- C5: when the list call succeeds with `R`, the delete calls of
`pruneUpdates` are, in the order of `R`, exactly the records of `R` whose
package name is the package name of no local update; a record of `R` whose name
is present locally is not deleted, whatever its other fields. -/
theorem pruneUpdates_deletes {σ : Type} (client : Client σ) (updates R : List Update)
    (s s1 : σ) (hget : client.GetUpdates s = ((R, none), s1)) :
    deleteCalls (pruneUpdates client updates s).2
        = R.filter (fun r => decide (r.PackageName ∉ packageNames updates)) ∧
      ∀ r ∈ R, (∃ l ∈ updates, l.PackageName = r.PackageName) →
        r ∉ deleteCalls (pruneUpdates client updates s).2 := by
  have h1 : deleteCalls (pruneUpdates client updates s).2
      = R.filter (fun r => decide (r.PackageName ∉ packageNames updates)) := by
    rw [deleteCalls_pruneUpdates, hget]
    apply List.filter_congr
    intro r _
    have := updateListContains_eq_false_iff updates r
    by_cases hc : updateListContains updates r = true
    · have hn : ¬ r.PackageName ∉ packageNames updates := by
        rw [← this, hc]; decide
      simp [hc, hn]
    · have hc' : updateListContains updates r = false := by simpa using hc
      simp [hc', this.1 hc']
  refine ⟨h1, ?_⟩
  rintro r _ ⟨l, hl, e⟩ hmem
  rw [h1, List.mem_filter] at hmem
  exact of_decide_eq_true hmem.2 (List.mem_map.2 ⟨l, hl, e⟩)

set_option maxRecDepth 100000 in
theorem pruneUpdates_deletes_witness :
    deleteCalls (pruneUpdates storeClient [localA, localB] [remoteA, remoteC]).2 = [remoteC] ∧
      remoteA ∉ deleteCalls (pruneUpdates storeClient [localA, localB] [remoteA, remoteC]).2 := by
  have h := pruneUpdates_deletes storeClient [localA, localB] [remoteA, remoteC]
    [remoteA, remoteC] [remoteA, remoteC] rfl
  exact ⟨h.1.trans (by decide), h.2 remoteA (by decide) ⟨localA, by decide, by decide⟩⟩

set_option maxRecDepth 100000 in
/-- C6: the list call fails and returns the record of `C` along with the error;
`pruneUpdates` logs the error and then deletes `C`. -/
theorem pruneUpdates_after_list_error :
    (pruneUpdates (succeedingClient [remoteC] (some "timeout")) [localA] ()).2
      = [Event.GetUpdates [remoteC] (some "timeout"), listFailedEntry "timeout",
          deletingEntry remoteC, Event.DeleteUpdate remoteC none] ∧
    deleteCalls (pruneUpdates (succeedingClient [remoteC] (some "timeout")) [localA] ()).2
      = [remoteC] := by
  decide


theorem createCalls_append (a b : List Event) :
    createCalls (a ++ b) = createCalls a ++ createCalls b := by
  induction a with
  | nil => rfl
  | cons e a ih => cases e <;> simp [createCalls, ih]

theorem logEntries_append (a b : List Event) :
    logEntries (a ++ b) = logEntries a ++ logEntries b := by
  induction a with
  | nil => rfl
  | cons e a ih => cases e <;> simp [logEntries, ih]

theorem listCalls_append (a b : List Event) :
    listCalls (a ++ b) = listCalls a ++ listCalls b := by
  induction a with
  | nil => rfl
  | cons e a ih => cases e <;> simp [listCalls, ih]

theorem logWritten_createdEntry (u : Update) : logWritten (createdEntry u) = [] := rfl

theorem logWritten_deletingEntry (u : Update) :
    logWritten (deletingEntry u) = [deletingEntry u] := rfl

theorem logWritten_listFailedEntry (e : GoError) :
    logWritten (listFailedEntry e) = [listFailedEntry e] := rfl

/-- The events of the loop of `createUpdates`: one call per record, in order,
and nothing else: the trace-level entry is not written. -/
theorem createUpdates_events {σ : Type} (client : Client σ) (updates : List Update) :
    ∀ acc : σ × List Event,
      ∃ ev, (updates.foldl (createUpdatesStep client) acc).2 = acc.2 ++ ev ∧
        createCalls ev = updates ∧ deleteCalls ev = [] ∧ listCalls ev = [] ∧
        logEntries ev = [] := by
  induction updates with
  | nil => intro acc; exact ⟨[], by simp, rfl, rfl, rfl, rfl⟩
  | cons u us ih =>
    intro acc
    obtain ⟨ev, h0, h1, h2, h3, h4⟩ := ih (createUpdatesStep client acc u)
    refine ⟨Event.CreateUpdate u (client.CreateUpdate u acc.1).1 :: ev, ?_, ?_, ?_, ?_, ?_⟩
    · rw [List.foldl_cons, h0]
      simp [createUpdatesStep, logWritten_createdEntry]
    · simp [createCalls, h1]
    · simp [deleteCalls, h2]
    · simp [listCalls, h3]
    · simp [logEntries, h4]

/-- C8: whatever the client returns, `createUpdates` calls `CreateUpdate`
exactly once for each record of `updates`, with that record, in list order (and
calls nothing else): a call that fails does not keep the later calls from being
made. -/
theorem createUpdates_calls {σ : Type} (client : Client σ) (updates : List Update) (s : σ) :
    createCalls (createUpdates client updates s).2 = updates ∧
      deleteCalls (createUpdates client updates s).2 = [] := by
  obtain ⟨ev, h0, h1, h2, _, _⟩ := createUpdates_events client updates (s, [])
  unfold createUpdates
  rw [h0]
  exact ⟨h1, h2⟩

/-- The events of the loop of `pruneUpdates`: for each listed record that
`updateListContains` does not find, the entry `Deleting update from server` and
then the delete call. -/
theorem pruneUpdates_events {σ : Type} (client : Client σ) (updates R : List Update) :
    ∀ acc : σ × List Event,
      ∃ ev, (R.foldl (pruneUpdatesStep client updates) acc).2 = acc.2 ++ ev ∧
        createCalls ev = [] ∧ listCalls ev = [] ∧
        deleteCalls ev = R.filter (fun r => !updateListContains updates r) ∧
        logEntries ev
          = (R.filter (fun r => !updateListContains updates r)).map deletingEntry := by
  induction R with
  | nil => intro acc; exact ⟨[], by simp, rfl, rfl, rfl, rfl⟩
  | cons r R ih =>
    intro acc
    obtain ⟨ev, h0, h1, h2, h3, h4⟩ := ih (pruneUpdatesStep client updates acc r)
    by_cases hr : updateListContains updates r = true
    · refine ⟨ev, ?_, h1, h2, ?_, ?_⟩
      · rw [List.foldl_cons, h0]
        simp [pruneUpdatesStep, hr]
      · simp [h3, hr]
      · simp [h4, hr]
    · have hr' : updateListContains updates r = false := by simpa using hr
      refine ⟨deletingEntry r :: Event.DeleteUpdate r (client.DeleteUpdate r acc.1).1 :: ev,
        ?_, ?_, ?_, ?_, ?_⟩
      · rw [List.foldl_cons, h0]
        simp [pruneUpdatesStep, hr', logWritten_deletingEntry]
      · simp [createCalls, deletingEntry, h1]
      · simp [listCalls, deletingEntry, h2]
      · simp [deleteCalls, deletingEntry, h3, hr']
      · simp [logEntries, deletingEntry, h4, hr']

theorem filter_updateListContains (updates L : List Update) :
    L.filter (fun r => !updateListContains updates r)
      = L.filter (fun r => decide (r.PackageName ∉ packageNames updates)) := by
  apply List.filter_congr
  intro r _
  have := updateListContains_eq_false_iff updates r
  by_cases hc : updateListContains updates r = true
  · have hn : ¬ r.PackageName ∉ packageNames updates := by
      rw [← this, hc]; decide
    simp [hc, hn]
  · have hc' : updateListContains updates r = false := by simpa using hc
    simp [hc', this.1 hc']

/-- The log of `createUpdates` and of `pruneUpdates` does not depend on whether
a create or a delete fails.  `createUpdates` writes no entry; `pruneUpdates`
writes the failure of the list call, if it failed, and one entry
`Deleting update from server` per record it deletes. -/
theorem write_results_not_logged {σ : Type} (client : Client σ) (updates : List Update) (s : σ) :
    logEntries (createUpdates client updates s).2 = [] ∧
      logEntries (pruneUpdates client updates s).2
        = (match (client.GetUpdates s).1.2 with
            | some e => [listFailedEntry e]
            | none => [])
          ++ ((client.GetUpdates s).1.1.filter
                (fun r => !updateListContains updates r)).map deletingEntry := by
  constructor
  · obtain ⟨ev, h0, _, _, _, h4⟩ := createUpdates_events client updates (s, [])
    unfold createUpdates
    rw [h0]
    exact h4
  · unfold pruneUpdates
    dsimp only
    obtain ⟨ev, h0, _, _, _, h4⟩ := pruneUpdates_events client updates (client.GetUpdates s).1.1
      ((client.GetUpdates s).2,
        match (client.GetUpdates s).1.2 with
        | some e => [Event.GetUpdates (client.GetUpdates s).1.1 (client.GetUpdates s).1.2]
            ++ logWritten (listFailedEntry e)
        | none => [Event.GetUpdates (client.GetUpdates s).1.1 (client.GetUpdates s).1.2])
    rw [h0, logEntries_append, h4]
    cases (client.GetUpdates s).1.2 <;> simp [logEntries, listFailedEntry, logWritten]

set_option maxRecDepth 100000 in
/-- C9: with a client whose writes all fail, the create of `localA` fails and
`createUpdates` writes no log entry at all; the delete of `remoteC` fails and
the only entry `pruneUpdates` writes is `Deleting update from server`, written
before the call, the same log as when the delete succeeds. -/
theorem write_failure_unreported :
    (createUpdates (failingClient [] none) [localA] ()).2
        = [Event.CreateUpdate localA (some "create: connection refused")] ∧
      logEntries (createUpdates (failingClient [] none) [localA] ()).2 = [] ∧
      (pruneUpdates (failingClient [remoteC] none) [localA] ()).2
        = [Event.GetUpdates [remoteC] none, deletingEntry remoteC,
            Event.DeleteUpdate remoteC (some "delete: connection refused")] ∧
      logEntries (pruneUpdates (failingClient [remoteC] none) [localA] ()).2
        = logEntries (pruneUpdates (succeedingClient [remoteC] none) [localA] ()).2 := by
  decide

/-! ## One cycle against a store keyed by package name -/

theorem getAvailableUpdates_eq_map (out : GoString) :
    getAvailableUpdates out = (Filter (splitLines out) isPackageInstall).map parsePackageLine := by
  unfold getAvailableUpdates
  generalize Filter (splitLines out) isPackageInstall = lines
  have h : ∀ acc : List Update,
      lines.foldl (fun updates line => updates ++ [parsePackageLine line]) acc
        = acc ++ lines.map parsePackageLine := by
    induction lines with
    | nil => intro acc; simp
    | cons l ls ih => intro acc; rw [List.foldl_cons, ih]; simp
  simpa using h []

theorem createUpdates_store (updates : List Update) : ∀ acc : List Update × List Event,
    updates.foldl (createUpdatesStep storeClient) acc
      = (updates.foldl (fun s u => storeUpsert u s) acc.1,
          acc.2 ++ updates.map (fun u => Event.CreateUpdate u none)) := by
  induction updates with
  | nil => intro acc; simp
  | cons u us ih =>
    intro acc
    rw [List.foldl_cons, ih]
    simp [createUpdatesStep, storeClient, logWritten_createdEntry]

theorem pruneUpdates_store (updates L : List Update) : ∀ acc : List Update × List Event,
    L.foldl (pruneUpdatesStep storeClient updates) acc
      = ((L.filter (fun r => !updateListContains updates r)).foldl
            (fun s r => storeDelete r s) acc.1,
          acc.2 ++ (L.filter (fun r => !updateListContains updates r)).flatMap
            (fun r => [deletingEntry r, Event.DeleteUpdate r none])) := by
  induction L with
  | nil => intro acc; simp
  | cons r L ih =>
    intro acc
    rw [List.foldl_cons, ih]
    unfold pruneUpdatesStep
    by_cases hr : updateListContains updates r = true
    · simp [hr]
    · simp [hr, storeClient, logWritten_deletingEntry]

theorem mem_packageNames_storeUpsert (u : Update) (s : List Update) (n : GoString) :
    n ∈ packageNames (storeUpsert u s) ↔ n = u.PackageName ∨ n ∈ packageNames s := by
  induction s with
  | nil => simp [storeUpsert, packageNames]
  | cons x xs ih =>
    unfold storeUpsert
    by_cases hx : x.PackageName = u.PackageName
    · simp only [hx, if_true, packageNames, List.map_cons, List.mem_cons]
      tauto
    · simp only [hx, if_false, packageNames, List.map_cons, List.mem_cons]
      simp only [packageNames] at ih
      rw [ih]
      tauto

theorem mem_packageNames_upserts (updates : List Update) (n : GoString) :
    ∀ s : List Update,
      n ∈ packageNames (updates.foldl (fun s u => storeUpsert u s) s)
        ↔ n ∈ packageNames updates ∨ n ∈ packageNames s := by
  induction updates with
  | nil => intro s; simp [packageNames]
  | cons u us ih =>
    intro s
    rw [List.foldl_cons, ih, mem_packageNames_storeUpsert]
    simp only [packageNames, List.map_cons, List.mem_cons]
    tauto

theorem mem_storeDeletes (D : List Update) (x : Update) : ∀ s : List Update,
    x ∈ D.foldl (fun s r => storeDelete r s) s
      ↔ x ∈ s ∧ ∀ r ∈ D, x.PackageName ≠ r.PackageName := by
  induction D with
  | nil => intro s; simp
  | cons d D ih =>
    intro s
    rw [List.foldl_cons, ih]
    simp only [storeDelete, List.mem_filter, decide_eq_true_eq, List.mem_cons, forall_eq_or_imp]
    tauto

/-- C7: for every client, `syncUpdates` makes the create calls for all local
updates, in order, whether or not they fail, then the list call, then the
delete calls, with the entries `Posting new updates to the server` and
`Pruning updates from the server` before the creates and before the list call.
Against the store keyed by package name, with every call succeeding, no deleted
record has the package name of a local update, and the package names held
remotely afterwards are exactly the package names of the local updates. -/
theorem syncUpdates_store (out : GoString) (s0 : List Update) :
    (∀ (σ : Type) (client : Client σ) (s : σ),
      ∃ final evC evP listed err,
        syncUpdates client (out, none) s
          = Outcome.returned final
              ([Event.Log Level.Info [] "Posting new updates to the server"] ++ evC
                ++ [Event.Log Level.Info [] "Pruning updates from the server"]
                ++ (Event.GetUpdates listed err :: evP)) ∧
        createCalls evC = getAvailableUpdates out ∧ deleteCalls evC = [] ∧
        listCalls evC = [] ∧
        createCalls evP = [] ∧ listCalls evP = [] ∧
        deleteCalls evP = listed.filter
          (fun r => decide (r.PackageName ∉ packageNames (getAvailableUpdates out)))) ∧
    ∃ final listed deleted,
      syncUpdates storeClient (out, none) s0
        = Outcome.returned final
            ([Event.Log Level.Info [] "Posting new updates to the server"]
              ++ (getAvailableUpdates out).map (fun u => Event.CreateUpdate u none)
              ++ [Event.Log Level.Info [] "Pruning updates from the server"]
              ++ (Event.GetUpdates listed none
                  :: deleted.flatMap (fun u => [deletingEntry u, Event.DeleteUpdate u none]))) ∧
      deleted = listed.filter
        (fun r => decide (r.PackageName ∉ packageNames (getAvailableUpdates out))) ∧
      (∀ u ∈ deleted, u.PackageName ∉ packageNames (getAvailableUpdates out)) ∧
      (∀ n, n ∈ packageNames final ↔ n ∈ packageNames (getAvailableUpdates out)) := by
  generalize hu : getAvailableUpdates out = updates
  constructor
  · intro σ client s
    obtain ⟨evC, c0, c1, c2, c3, _⟩ := createUpdates_events client updates (s, [])
    have c0' : (createUpdates client updates s).2 = evC := by
      unfold createUpdates
      rw [c0]
      rfl
    let s1 := (createUpdates client updates s).1
    obtain ⟨evL, p0, p1, p2, p3, _⟩ := pruneUpdates_events client updates (client.GetUpdates s1).1.1
      ((client.GetUpdates s1).2,
        match (client.GetUpdates s1).1.2 with
        | some e => [Event.GetUpdates (client.GetUpdates s1).1.1 (client.GetUpdates s1).1.2]
            ++ logWritten (listFailedEntry e)
        | none => [Event.GetUpdates (client.GetUpdates s1).1.1 (client.GetUpdates s1).1.2])
    refine ⟨(pruneUpdates client updates s1).1, evC,
      (match (client.GetUpdates s1).1.2 with
        | some e => [listFailedEntry e]
        | none => []) ++ evL,
      (client.GetUpdates s1).1.1, (client.GetUpdates s1).1.2, ?_, c1, c2, c3, ?_, ?_, ?_⟩
    · have hp : (pruneUpdates client updates s1).2
          = Event.GetUpdates (client.GetUpdates s1).1.1 (client.GetUpdates s1).1.2
              :: ((match (client.GetUpdates s1).1.2 with
                    | some e => [listFailedEntry e]
                    | none => []) ++ evL) := by
        unfold pruneUpdates
        dsimp only
        rw [p0]
        cases (client.GetUpdates s1).1.2 <;> simp [logWritten_listFailedEntry]
      simp only [syncUpdates, hu]
      rw [c0', hp]
      rfl
    · rw [createCalls_append, p1]
      cases (client.GetUpdates s1).1.2 <;> simp [createCalls, listFailedEntry]
    · rw [listCalls_append, p2]
      cases (client.GetUpdates s1).1.2 <;> simp [listCalls, listFailedEntry]
    · rw [deleteCalls_append, p3, filter_updateListContains]
      cases (client.GetUpdates s1).1.2 <;> simp [deleteCalls, listFailedEntry]
  · let listed := updates.foldl (fun s u => storeUpsert u s) s0
    let deleted := listed.filter (fun r => decide (r.PackageName ∉ packageNames updates))
    have hdel : ∀ u ∈ deleted, u.PackageName ∉ packageNames updates := by
      intro u hmem
      exact of_decide_eq_true (List.mem_filter.1 hmem).2
    refine ⟨deleted.foldl (fun s r => storeDelete r s) listed, listed, deleted, ?_, rfl, hdel, ?_⟩
    · simp only [syncUpdates, hu, createUpdates, pruneUpdates, createUpdates_store,
        pruneUpdates_store, filter_updateListContains]
      simp [storeClient, listed, deleted, logWritten, enabledAtDefault]
    · intro n
      constructor
      · intro hn
        obtain ⟨x, hx, rfl⟩ := List.mem_map.1 hn
        obtain ⟨hxl, hxd⟩ := (mem_storeDeletes deleted x listed).1 hx
        by_contra hnot
        have hxdel : x ∈ deleted := List.mem_filter.2 ⟨hxl, decide_eq_true hnot⟩
        exact hxd x hxdel rfl
      · intro hn
        have hl : n ∈ packageNames listed :=
          (mem_packageNames_upserts updates n s0).2 (Or.inl hn)
        obtain ⟨x, hx, rfl⟩ := List.mem_map.1 hl
        refine List.mem_map.2 ⟨x, (mem_storeDeletes deleted x listed).2 ⟨hx, ?_⟩, rfl⟩
        intro r hr e
        exact hdel r hr (e ▸ hn)

set_option maxRecDepth 1000000 in
set_option maxHeartbeats 4000000 in
/-- The reconciliation scenario: local updates of `A` and `B`, remote records of
`A` and `C` before the cycle. -/
theorem syncUpdates_store_scenario :
    syncUpdates storeClient (sampleOutput, none) [remoteA, remoteC]
        = Outcome.returned [localA, localB]
            [Event.Log Level.Info [] "Posting new updates to the server",
             Event.CreateUpdate localA none,
             Event.CreateUpdate localB none,
             Event.Log Level.Info [] "Pruning updates from the server",
             Event.GetUpdates [localA, remoteC, localB] none,
             deletingEntry remoteC, Event.DeleteUpdate remoteC none] ∧
      ∃ final listed deleted,
        syncUpdates storeClient (sampleOutput, none) [remoteA, remoteC]
          = Outcome.returned final
              ([Event.Log Level.Info [] "Posting new updates to the server"]
                ++ (getAvailableUpdates sampleOutput).map (fun u => Event.CreateUpdate u none)
                ++ [Event.Log Level.Info [] "Pruning updates from the server"]
                ++ (Event.GetUpdates listed none
                    :: deleted.flatMap
                        (fun u => [deletingEntry u, Event.DeleteUpdate u none]))) ∧
        deleted = listed.filter
          (fun r => decide (r.PackageName ∉ packageNames (getAvailableUpdates sampleOutput))) ∧
        (∀ u ∈ deleted, u.PackageName ∉ packageNames (getAvailableUpdates sampleOutput)) ∧
        (∀ n, n ∈ packageNames final ↔ n ∈ packageNames (getAvailableUpdates sampleOutput)) :=
  ⟨by decide, (syncUpdates_store sampleOutput [remoteA, remoteC]).2⟩

/-! ## The package name -/

theorem encodeRune_ne_nil (r : Nat) : encodeRune r ≠ [] := by
  unfold encodeRune
  split_ifs <;> simp

theorem parsePackageLine_packageName (line : GoString) :
    (parsePackageLine line).PackageName = (scanLine line).2.PackageName := by
  unfold parsePackageLine
  dsimp only
  split_ifs <;> rfl

theorem scanRune_name_later (p : Nat × Update) (x : Nat) (h1 : p.1 ≠ 1) (h2 : p.1 ≠ 2) :
    (scanRune p x).1 ≠ 1 ∧ (scanRune p x).1 ≠ 2 ∧
      (scanRune p x).2.PackageName = p.2.PackageName := by
  unfold scanRune
  split <;> (try split_ifs) <;> simp_all

theorem foldl_scanRune_name_later (xs : List Nat) : ∀ p : Nat × Update, p.1 ≠ 1 → p.1 ≠ 2 →
    (xs.foldl scanRune p).2.PackageName = p.2.PackageName := by
  induction xs with
  | nil => intro p _ _; rfl
  | cons x xs ih =>
    intro p h1 h2
    obtain ⟨k1, k2, k3⟩ := scanRune_name_later p x h1 h2
    rw [List.foldl_cons, ih _ k1 k2, k3]

theorem scanRune_name_nonempty (p : Nat × Update) (x : Nat) (h : p.2.PackageName ≠ []) :
    (scanRune p x).2.PackageName ≠ [] := by
  unfold scanRune
  split <;> (try split_ifs) <;> simp_all

theorem foldl_scanRune_name_nonempty (xs : List Nat) : ∀ p : Nat × Update,
    p.2.PackageName ≠ [] → (xs.foldl scanRune p).2.PackageName ≠ [] := by
  induction xs with
  | nil => intro p h; exact h
  | cons x xs ih =>
    intro p h
    rw [List.foldl_cons]
    exact ih _ (scanRune_name_nonempty p x h)

theorem exists_first_split (a : Byte) (l : GoString) (h : a ∈ l) :
    ∃ m tail, l = m ++ a :: tail ∧ a ∉ m := by
  induction l with
  | nil => simp at h
  | cons b l ih =>
    by_cases hb : b = a
    · exact ⟨[], l, by rw [hb]; rfl, by simp⟩
    · have hl : a ∈ l := by
        rcases List.mem_cons.1 h with e | e
        · exact absurd e.symm hb
        · exact e
      obtain ⟨m, tail, e, hm⟩ := ih hl
      refine ⟨b :: m, tail, by rw [e]; rfl, ?_⟩
      intro hmem
      rcases List.mem_cons.1 hmem with e' | e'
      · exact hb e'.symm
      · exact hm e'

/-- After the marker word and the space that ends it, the scan is in state 2
with an empty record. -/
theorem scanLine_marker (m tail : GoString) (hm : byte 0x20 ∉ m) :
    scanLine (m ++ byte 0x20 :: tail) = (runes tail).foldl scanRune (2, {}) := by
  unfold scanLine
  rw [runes_append_ascii _ (by decide), List.foldl_append, List.foldl_cons,
    foldl_scan1 _ _ (not_mem_runes_of_not_mem m 0x20 (by decide) hm)]
  rfl

set_option maxRecDepth 100000 in
/-- C10, as stated, fails: `doubleSpaceLine` (`Inst`, two spaces,
`libfoo [1.0] (1.1 focal)`) starts with the marker and is longer than 7, so
`Filter` keeps it, and the record parsed from it has an empty package name. -/
theorem packageName_empty_counterexample :
    Filter (splitLines doubleSpaceLine) isPackageInstall = [doubleSpaceLine] ∧
      (parsePackageLine doubleSpaceLine).PackageName = [] ∧
      packageNames (getAvailableUpdates doubleSpaceLine) = [[]] := by
  decide

/-- C10, amended: the record `parsePackageLine` returns for a line has a
non-empty package name if and only if the first space of the line is directly
followed by a byte other than a space. -/
theorem packageName_nonempty_iff (line : GoString) :
    (parsePackageLine line).PackageName ≠ []
      ↔ ∃ m b rest, line = m ++ byte 0x20 :: b :: rest ∧ byte 0x20 ∉ m ∧ b ≠ byte 0x20 := by
  rw [parsePackageLine_packageName]
  constructor
  · intro hne
    by_cases hsp : byte 0x20 ∈ line
    · obtain ⟨m, tail, rfl, hm⟩ := exists_first_split _ _ hsp
      rw [scanLine_marker m tail hm] at hne
      cases tail with
      | nil => exact absurd rfl hne
      | cons b rest =>
        by_cases hb : b = byte 0x20
        · exfalso
          rw [hb, runes_cons_ascii _ _ (by decide), List.foldl_cons] at hne
          have h3 : scanRune (2, ({} : Update)) (byte 0x20).val = (3, {}) := rfl
          rw [h3, foldl_scanRune_name_later _ _ (by decide) (by decide)] at hne
          exact hne rfl
        · exact ⟨m, b, rest, rfl, hm, hb⟩
    · exfalso
      unfold scanLine at hne
      rw [foldl_scan1 _ _ (not_mem_runes_of_not_mem line 0x20 (by decide) hsp)] at hne
      exact hne rfl
  · rintro ⟨m, b, rest, rfl, hm, hb⟩
    rw [scanLine_marker m _ hm]
    change ((runesFrom 0 (b :: rest)).foldl scanRune (2, {})).2.PackageName ≠ []
    simp only [runesFrom, List.foldl_cons]
    apply foldl_scanRune_name_nonempty
    have hx : (decodeRune (b :: rest)).1 ≠ 0x20 := by
      intro e
      have hlt : b.val < 0x80 := decodeRune_ascii_inv b rest (by omega)
      rw [decodeRune_ascii b rest hlt] at e
      exact hb (Fin.ext (by rw [byte_val]; exact e))
    simp only [scanRune, hx, if_false]
    simpa using encodeRune_ne_nil _


/-! ## Where the scan stops -/

theorem scanRunes_state2 (m n : List Nat) (hm : 0x20 ∉ m) (hn : 0x20 ∉ n) :
    (m ++ 0x20 :: n).foldl scanRune (1, {})
      = (2, { PackageName := n.flatMap encodeRune, CurrentVersion := [], NewVersion := [],
              Repository := [], Security := false }) := by
  have s1 : ∀ u : Update, scanRune (1, u) 0x20 = (2, u) := fun u => rfl
  rw [List.foldl_append, List.foldl_cons, foldl_scan1 _ _ hm, s1, foldl_scan2 _ hn]
  simp

theorem scanRunes_state3 (m n g : List Nat) (hm : 0x20 ∉ m) (hn : 0x20 ∉ n) (hg : 0x5B ∉ g) :
    (m ++ 0x20 :: (n ++ 0x20 :: g)).foldl scanRune (1, {})
      = (3, { PackageName := n.flatMap encodeRune, CurrentVersion := [], NewVersion := [],
              Repository := [], Security := false }) := by
  have e : m ++ 0x20 :: (n ++ 0x20 :: g) = (m ++ 0x20 :: n) ++ 0x20 :: g := by simp
  have s2 : ∀ u : Update, scanRune (2, u) 0x20 = (3, u) := fun u => rfl
  rw [e, List.foldl_append, List.foldl_cons, scanRunes_state2 m n hm hn, s2, foldl_scan3 _ _ hg]

theorem scanRunes_state4 (m n g c : List Nat) (hm : 0x20 ∉ m) (hn : 0x20 ∉ n) (hg : 0x5B ∉ g)
    (hc : 0x5D ∉ c) :
    (m ++ 0x20 :: (n ++ 0x20 :: (g ++ 0x5B :: c))).foldl scanRune (1, {})
      = (4, { PackageName := n.flatMap encodeRune, CurrentVersion := c.flatMap encodeRune,
              NewVersion := [], Repository := [], Security := false }) := by
  have e : m ++ 0x20 :: (n ++ 0x20 :: (g ++ 0x5B :: c))
      = (m ++ 0x20 :: (n ++ 0x20 :: g)) ++ 0x5B :: c := by simp
  have s3 : ∀ u : Update, scanRune (3, u) 0x5B = (4, u) := fun u => rfl
  rw [e, List.foldl_append, List.foldl_cons, scanRunes_state3 m n g hm hn hg, s3,
    foldl_scan4 _ hc]
  simp

theorem scanRunes_state5 (m n g c h : List Nat) (hm : 0x20 ∉ m) (hn : 0x20 ∉ n)
    (hg : 0x5B ∉ g) (hc : 0x5D ∉ c) (hh : 0x28 ∉ h) :
    (m ++ 0x20 :: (n ++ 0x20 :: (g ++ 0x5B :: (c ++ 0x5D :: h)))).foldl scanRune (1, {})
      = (5, { PackageName := n.flatMap encodeRune, CurrentVersion := c.flatMap encodeRune,
              NewVersion := [], Repository := [], Security := false }) := by
  have e : m ++ 0x20 :: (n ++ 0x20 :: (g ++ 0x5B :: (c ++ 0x5D :: h)))
      = (m ++ 0x20 :: (n ++ 0x20 :: (g ++ 0x5B :: c))) ++ 0x5D :: h := by simp
  have s4 : ∀ u : Update, scanRune (4, u) 0x5D = (5, u) := fun u => rfl
  rw [e, List.foldl_append, List.foldl_cons, scanRunes_state4 m n g c hm hn hg hc, s4,
    foldl_scan5 _ _ hh]

theorem scanRunes_state6 (m n g c h v : List Nat) (hm : 0x20 ∉ m) (hn : 0x20 ∉ n)
    (hg : 0x5B ∉ g) (hc : 0x5D ∉ c) (hh : 0x28 ∉ h) (hv : 0x20 ∉ v) :
    (m ++ 0x20 :: (n ++ 0x20 :: (g ++ 0x5B :: (c ++ 0x5D :: (h ++ 0x28 :: v))))).foldl
        scanRune (1, {})
      = (6, { PackageName := n.flatMap encodeRune, CurrentVersion := c.flatMap encodeRune,
              NewVersion := v.flatMap encodeRune, Repository := [], Security := false }) := by
  have e : m ++ 0x20 :: (n ++ 0x20 :: (g ++ 0x5B :: (c ++ 0x5D :: (h ++ 0x28 :: v))))
      = (m ++ 0x20 :: (n ++ 0x20 :: (g ++ 0x5B :: (c ++ 0x5D :: h)))) ++ 0x28 :: v := by simp
  have s5 : ∀ u : Update, scanRune (5, u) 0x28 = (6, u) := fun u => rfl
  rw [e, List.foldl_append, List.foldl_cons, scanRunes_state5 m n g c h hm hn hg hc hh, s5,
    foldl_scan6 _ hv]
  simp

theorem scanRunes_state7 (m n g c h v r : List Nat) (hm : 0x20 ∉ m) (hn : 0x20 ∉ n)
    (hg : 0x5B ∉ g) (hc : 0x5D ∉ c) (hh : 0x28 ∉ h) (hv : 0x20 ∉ v) (hr : 0x29 ∉ r) :
    (m ++ 0x20 :: (n ++ 0x20 :: (g ++ 0x5B :: (c ++ 0x5D :: (h ++ 0x28 ::
        (v ++ 0x20 :: r)))))).foldl scanRune (1, {})
      = (7, { PackageName := n.flatMap encodeRune, CurrentVersion := c.flatMap encodeRune,
              NewVersion := v.flatMap encodeRune, Repository := r.flatMap encodeRune,
              Security := false }) := by
  have e : m ++ 0x20 :: (n ++ 0x20 :: (g ++ 0x5B :: (c ++ 0x5D :: (h ++ 0x28 ::
        (v ++ 0x20 :: r)))))
      = (m ++ 0x20 :: (n ++ 0x20 :: (g ++ 0x5B :: (c ++ 0x5D :: (h ++ 0x28 :: v)))))
          ++ 0x20 :: r := by simp
  have s6 : ∀ u : Update, scanRune (6, u) 0x20 = (7, u) := fun u => rfl
  rw [e, List.foldl_append, List.foldl_cons, scanRunes_state6 m n g c h v hm hn hg hc hh hv, s6,
    foldl_scan7 _ hr]
  simp

theorem scanRunes_state8 (m n g c h v r t : List Nat) (hm : 0x20 ∉ m) (hn : 0x20 ∉ n)
    (hg : 0x5B ∉ g) (hc : 0x5D ∉ c) (hh : 0x28 ∉ h) (hv : 0x20 ∉ v) (hr : 0x29 ∉ r) :
    (m ++ 0x20 :: (n ++ 0x20 :: (g ++ 0x5B :: (c ++ 0x5D :: (h ++ 0x28 ::
        (v ++ 0x20 :: (r ++ 0x29 :: t))))))).foldl scanRune (1, {})
      = (8, { PackageName := n.flatMap encodeRune, CurrentVersion := c.flatMap encodeRune,
              NewVersion := v.flatMap encodeRune, Repository := r.flatMap encodeRune,
              Security := false }) := by
  have e : m ++ 0x20 :: (n ++ 0x20 :: (g ++ 0x5B :: (c ++ 0x5D :: (h ++ 0x28 ::
        (v ++ 0x20 :: (r ++ 0x29 :: t))))))
      = (m ++ 0x20 :: (n ++ 0x20 :: (g ++ 0x5B :: (c ++ 0x5D :: (h ++ 0x28 ::
          (v ++ 0x20 :: r)))))) ++ 0x29 :: t := by simp
  have s7 : ∀ u : Update, scanRune (7, u) 0x29 = (8, u) := fun u => rfl
  rw [e, List.foldl_append, List.foldl_cons,
    scanRunes_state7 m n g c h v r hm hn hg hc hh hv hr, s7, foldl_scan8]


/-- With an empty repository the record returned is the record of the scan. -/
theorem parsePackageLine_of_scanLine (line : GoString) (st : Nat) (u : Update)
    (h : scanLine line = (st, u)) (hr : u.Repository = []) : parsePackageLine line = u := by
  unfold parsePackageLine
  rw [h]
  dsimp only
  rw [hr]
  have : stringsContains [] securityMark = false := by decide
  rw [this]
  rfl

theorem scanLine_state1 (m : GoString) (hm : 0x20 ∉ runes m) : scanLine m = (1, {}) :=
  foldl_scan1 _ _ hm

theorem scanLine_state2 (m n : GoString) (hm : 0x20 ∉ runes m) (hn : 0x20 ∉ runes n) :
    scanLine (m ++ byte 0x20 :: n)
      = (2, { PackageName := reencode n, CurrentVersion := [], NewVersion := [],
              Repository := [], Security := false }) := by
  unfold scanLine
  rw [runes_append_ascii _ (by decide)]
  exact scanRunes_state2 _ _ hm hn

theorem scanLine_state3 (m n g : GoString) (hm : 0x20 ∉ runes m) (hn : 0x20 ∉ runes n)
    (hg : 0x5B ∉ runes g) :
    scanLine (m ++ byte 0x20 :: (n ++ byte 0x20 :: g))
      = (3, { PackageName := reencode n, CurrentVersion := [], NewVersion := [],
              Repository := [], Security := false }) := by
  unfold scanLine
  rw [runes_append_ascii _ (by decide), runes_append_ascii _ (by decide)]
  exact scanRunes_state3 _ _ _ hm hn hg

theorem scanLine_state4 (m n g c : GoString) (hm : 0x20 ∉ runes m) (hn : 0x20 ∉ runes n)
    (hg : 0x5B ∉ runes g) (hc : 0x5D ∉ runes c) :
    scanLine (m ++ byte 0x20 :: (n ++ byte 0x20 :: (g ++ byte 0x5B :: c)))
      = (4, { PackageName := reencode n, CurrentVersion := reencode c, NewVersion := [],
              Repository := [], Security := false }) := by
  unfold scanLine
  rw [runes_append_ascii _ (by decide), runes_append_ascii _ (by decide),
    runes_append_ascii _ (by decide)]
  exact scanRunes_state4 _ _ _ _ hm hn hg hc

theorem scanLine_state5 (m n g c h : GoString) (hm : 0x20 ∉ runes m) (hn : 0x20 ∉ runes n)
    (hg : 0x5B ∉ runes g) (hc : 0x5D ∉ runes c) (hh : 0x28 ∉ runes h) :
    scanLine (m ++ byte 0x20 :: (n ++ byte 0x20 :: (g ++ byte 0x5B :: (c ++ byte 0x5D :: h))))
      = (5, { PackageName := reencode n, CurrentVersion := reencode c, NewVersion := [],
              Repository := [], Security := false }) := by
  unfold scanLine
  rw [runes_append_ascii _ (by decide), runes_append_ascii _ (by decide),
    runes_append_ascii _ (by decide), runes_append_ascii _ (by decide)]
  exact scanRunes_state5 _ _ _ _ _ hm hn hg hc hh

set_option maxRecDepth 100000 in
/-- C11, as stated, fails: `illFormedRestLine` has the form of the claim, with
the rest `illFormedRest`, the bytes `1`, `0xFF`, which holds no `]`; the `range`
loop reads the byte `0xFF` as U+FFFD, so the current version returned is `1`
and the three bytes of U+FFFD, and not the rest of the line. -/
theorem parsePackageLine_illFormed_rest_counterexample :
    byte 0x20 ∉ lit "Inst" ∧ byte 0x20 ∉ lit "p" ∧ byte 0x5B ∉ lit "" ∧
      byte 0x5D ∉ illFormedRest ∧
      (parsePackageLine illFormedRestLine).CurrentVersion = lit "1" ++ replacementBytes ∧
      (parsePackageLine illFormedRestLine).CurrentVersion ≠ illFormedRest := by
  decide

/-- C11, amended: a line with no closing bracket, marker word, space, name,
space, text, `[`, rest, where the marker and the name contain no space, the
text no `[` and the rest no `]`, and the name and the rest are well-formed UTF-8
(encodings of texts): `parsePackageLine` returns the name, the whole rest of
the line as current version, an empty new version and repository, and no
security flag.  The marker word and the text before `[` may be any bytes. -/
theorem parsePackageLine_unclosed (m g : GoString) (n rest : String)
    (hm : byte 0x20 ∉ m) (hn : ' ' ∉ n.toList) (hg : byte 0x5B ∉ g)
    (hrest : ']' ∉ rest.toList) :
    parsePackageLine (m ++ lit " " ++ lit n ++ lit " " ++ g ++ lit "[" ++ lit rest)
      = { PackageName := lit n, CurrentVersion := lit rest, NewVersion := [],
          Repository := [], Security := false } := by
  have e : m ++ lit " " ++ lit n ++ lit " " ++ g ++ lit "[" ++ lit rest
      = m ++ byte 0x20 :: (lit n ++ byte 0x20 :: (g ++ byte 0x5B :: lit rest)) := by
    have e1 : lit " " = [byte 0x20] := by decide
    have e2 : lit "[" = [byte 0x5B] := by decide
    simp only [e1, e2, List.append_assoc, List.singleton_append,
      List.cons_append, List.nil_append]
  have hs := scanLine_state4 m (lit n) g (lit rest)
    (not_mem_runes_of_not_mem m 0x20 (by decide) hm) (not_mem_runes_lit n ' ' hn)
    (not_mem_runes_of_not_mem g 0x5B (by decide) hg) (not_mem_runes_lit rest ']' hrest)
  rw [e, parsePackageLine_of_scanLine _ _ _ hs rfl, reencode_lit, reencode_lit]

set_option maxRecDepth 100000 in
theorem parsePackageLine_unclosed_witness :
    parsePackageLine unclosedLine
      = { PackageName := lit "libfoo", CurrentVersion := lit "1.0 (1.1 repo)",
          NewVersion := [], Repository := [], Security := false } :=
  parsePackageLine_unclosed (lit "Inst") (lit "") "libfoo" "1.0 (1.1 repo)" (by decide)
    (by decide) (by decide) (by decide)

/-- C12: when a delimiter is absent the scan stalls and the fields of the
states that are not reached stay empty, with no security flag: a line with no
space gives four empty fields; a line with no second space, or with no `[`
after the name, gives only the name; a line with no `(` after the first `]`
gives only the name and the current version.  `parsePackageLine` is a total
function: it returns a record for every string. -/
theorem parsePackageLine_stalls (l m n g g' c h : GoString)
    (hl : byte 0x20 ∉ l) (hm : byte 0x20 ∉ m) (hn : byte 0x20 ∉ n) (hg : byte 0x5B ∉ g)
    (hg' : byte 0x5B ∉ g') (hc : byte 0x5D ∉ c) (hh : byte 0x28 ∉ h) :
    parsePackageLine l
        = { PackageName := [], CurrentVersion := [], NewVersion := [], Repository := [],
            Security := false } ∧
      parsePackageLine (m ++ byte 0x20 :: n)
        = { PackageName := reencode n, CurrentVersion := [], NewVersion := [],
            Repository := [], Security := false } ∧
      parsePackageLine (m ++ byte 0x20 :: (n ++ byte 0x20 :: g))
        = { PackageName := reencode n, CurrentVersion := [], NewVersion := [],
            Repository := [], Security := false } ∧
      parsePackageLine
          (m ++ byte 0x20 :: (n ++ byte 0x20 :: (g' ++ byte 0x5B :: (c ++ byte 0x5D :: h))))
        = { PackageName := reencode n, CurrentVersion := reencode c, NewVersion := [],
            Repository := [], Security := false } := by
  have hl' := not_mem_runes_of_not_mem l 0x20 (by decide) hl
  have hm' := not_mem_runes_of_not_mem m 0x20 (by decide) hm
  have hn' := not_mem_runes_of_not_mem n 0x20 (by decide) hn
  have hg1 := not_mem_runes_of_not_mem g 0x5B (by decide) hg
  have hg2 := not_mem_runes_of_not_mem g' 0x5B (by decide) hg'
  have hc' := not_mem_runes_of_not_mem c 0x5D (by decide) hc
  have hh' := not_mem_runes_of_not_mem h 0x28 (by decide) hh
  exact ⟨parsePackageLine_of_scanLine _ _ _ (scanLine_state1 l hl') rfl,
    parsePackageLine_of_scanLine _ _ _ (scanLine_state2 m n hm' hn') rfl,
    parsePackageLine_of_scanLine _ _ _ (scanLine_state3 m n g hm' hn' hg1) rfl,
    parsePackageLine_of_scanLine _ _ _ (scanLine_state5 m n g' c h hm' hn' hg2 hc' hh') rfl⟩

set_option maxRecDepth 100000 in
theorem parsePackageLine_stalls_witness :
    parsePackageLine (lit "Instlibfoo")
        = { PackageName := [], CurrentVersion := [], NewVersion := [], Repository := [],
            Security := false } ∧
      parsePackageLine (lit "Inst libfoo")
        = { PackageName := lit "libfoo", CurrentVersion := [], NewVersion := [],
            Repository := [], Security := false } ∧
      parsePackageLine (lit "Inst libfoo 1.0 (1.1 focal-security)")
        = { PackageName := lit "libfoo", CurrentVersion := [], NewVersion := [],
            Repository := [], Security := false } ∧
      parsePackageLine (lit "Inst libfoo [1.0] 1.1 focal-security)")
        = { PackageName := lit "libfoo", CurrentVersion := lit "1.0", NewVersion := [],
            Repository := [], Security := false } :=
  parsePackageLine_stalls (lit "Instlibfoo") (lit "Inst") (lit "libfoo")
    (lit "1.0 (1.1 focal-security)") (lit "") (lit "1.0") (lit " 1.1 focal-security)")
    (by decide) (by decide) (by decide) (by decide) (by decide) (by decide) (by decide)


/-! ## After the closing parenthesis -/

theorem exists_last_ascii (p : GoString) :
    (∀ b ∈ p, 0x80 ≤ b.val) ∨
      ∃ q a z, p = q ++ a :: z ∧ a.val < 0x80 ∧ ∀ b ∈ z, 0x80 ≤ b.val := by
  induction p with
  | nil => exact Or.inl (by simp)
  | cons b p ih =>
    rcases ih with hall | ⟨q, a, z, rfl, ha, hz⟩
    · by_cases hb : b.val < 0x80
      · exact Or.inr ⟨[], b, p, rfl, hb, hall⟩
      · refine Or.inl ?_
        intro c hc
        rcases List.mem_cons.1 hc with e | e
        · rw [e]; omega
        · exact hall c e
    · exact Or.inr ⟨b :: q, a, z, rfl, ha, hz⟩

theorem runes_ge_of_bytes_ge (z : GoString) (h : ∀ b ∈ z, 0x80 ≤ b.val) :
    ∀ x ∈ runes z, 0x80 ≤ x := by
  intro x hx
  by_contra hlt
  obtain ⟨b, hb, hbx⟩ := mem_runesFrom_ascii z 0 x hx (by omega)
  have := h b hb
  omega

theorem scanRune_state_of_ge (p : Nat × Update) (x : Nat) (hx : 0x80 ≤ x) :
    (scanRune p x).1 = p.1 := by
  unfold scanRune
  split <;> (try split_ifs) <;> omega

theorem foldl_scanRune_state_of_ge (xs : List Nat) (h : ∀ x ∈ xs, 0x80 ≤ x) :
    ∀ p : Nat × Update, (xs.foldl scanRune p).1 = p.1 := by
  induction xs with
  | nil => intro p; rfl
  | cons x xs ih =>
    intro p
    rw [List.foldl_cons, ih (fun y hy => h y (List.mem_cons_of_mem _ hy)),
      scanRune_state_of_ge p x (h x (List.mem_cons_self _ _))]

theorem foldl_scanRune_done (xs : List Nat) (p : Nat × Update) (h : p.1 = 8) :
    xs.foldl scanRune p = p := by
  obtain ⟨st, u⟩ := p
  simp only at h
  subst h
  exact foldl_scan8 xs u

/-- Once the scan of `p` has reached state 8, text after `p` does not change
the result of the scan. -/
theorem scanLine_done_append (p t : GoString) (h : (scanLine p).1 = 8) :
    scanLine (p ++ t) = scanLine p := by
  rcases exists_last_ascii p with hall | ⟨q, a, z, rfl, ha, hz⟩
  · exfalso
    unfold scanLine at h
    rw [foldl_scanRune_state_of_ge _ (runes_ge_of_bytes_ge p hall)] at h
    exact absurd h (by decide)
  · unfold scanLine at h ⊢
    have e : q ++ a :: z ++ t = q ++ a :: (z ++ t) := by simp
    rw [e, runes_append_ascii a ha, List.foldl_append, List.foldl_cons]
    rw [runes_append_ascii a ha, List.foldl_append, List.foldl_cons] at h ⊢
    rw [foldl_scanRune_state_of_ge _ (runes_ge_of_bytes_ge z hz)] at h
    rw [foldl_scanRune_done _ _ h, foldl_scanRune_done _ _ h]

/-- C13: if the scan of `p` ends in state 8 (the `)` closing the repository
was consumed), then for every `t` the record parsed from `p ++ t` is the record
parsed from `p`: the rest of the line changes no field and not the security
flag. -/
theorem parsePackageLine_done_append (p t : GoString) (h : (scanLine p).1 = 8) :
    parsePackageLine (p ++ t) = parsePackageLine p := by
  unfold parsePackageLine
  rw [scanLine_done_append p t h]

set_option maxRecDepth 100000 in
theorem parsePackageLine_done_append_witness :
    (scanLine closedLine).1 = 8 ∧
      parsePackageLine (closedLine ++ trailingText) = parsePackageLine closedLine ∧
      parsePackageLine closedLine
        = { PackageName := lit "libfoo", CurrentVersion := lit "1.0", NewVersion := lit "1.1",
            Repository := lit "focal", Security := false } :=
  ⟨by decide, parsePackageLine_done_append closedLine trailingText (by decide), by decide⟩

/-! ## The fields and their delimiters -/

theorem byte_eq_ascii (d n : Nat) (hd : d < 0x80) (h : byte d = byte n) : n % 256 = d := by
  have := congrArg Fin.val h
  simp only [byte_val] at this
  omega

theorem mem_encodeRune_ascii (d x : Nat) (hd : d < 0x80) (h : byte d ∈ encodeRune x) :
    x = d := by
  unfold encodeRune at h
  split_ifs at h with h1 h2 h3 h4
  · simp only [List.mem_singleton] at h
    have hb := byte_eq_ascii d _ hd h
    omega
  · simp only [List.mem_cons, List.mem_singleton, List.not_mem_nil, or_false] at h
    rcases h with h | h <;> (have hb := byte_eq_ascii d _ hd h; omega)
  · simp only [List.mem_cons, List.mem_singleton, List.not_mem_nil, or_false] at h
    rcases h with h | h | h <;> (have hb := byte_eq_ascii d _ hd h; omega)
  · simp only [List.mem_cons, List.mem_singleton, List.not_mem_nil, or_false] at h
    rcases h with h | h | h <;> (have hb := byte_eq_ascii d _ hd h; omega)
  · simp only [List.mem_cons, List.mem_singleton, List.not_mem_nil, or_false] at h
    rcases h with h | h | h | h <;> (have hb := byte_eq_ascii d _ hd h; omega)


theorem not_mem_encodeRune (d x : Nat) (hd : d < 0x80) (hx : x ≠ d) : byte d ∉ encodeRune x :=
  fun h => hx (mem_encodeRune_ascii d x hd h)

/-- The four text fields returned are those accumulated by the scan. -/
theorem parsePackageLine_fields (line : GoString) :
    (parsePackageLine line).PackageName = (scanLine line).2.PackageName ∧
      (parsePackageLine line).CurrentVersion = (scanLine line).2.CurrentVersion ∧
      (parsePackageLine line).NewVersion = (scanLine line).2.NewVersion ∧
      (parsePackageLine line).Repository = (scanLine line).2.Repository := by
  unfold parsePackageLine
  dsimp only
  split_ifs <;> exact ⟨rfl, rfl, rfl, rfl⟩

theorem scanRune_no_delimiter (p : Nat × Update) (x : Nat)
    (h : byte 0x20 ∉ p.2.PackageName ∧ byte 0x5D ∉ p.2.CurrentVersion ∧
      byte 0x20 ∉ p.2.NewVersion ∧ byte 0x29 ∉ p.2.Repository) :
    byte 0x20 ∉ (scanRune p x).2.PackageName ∧ byte 0x5D ∉ (scanRune p x).2.CurrentVersion ∧
      byte 0x20 ∉ (scanRune p x).2.NewVersion ∧ byte 0x29 ∉ (scanRune p x).2.Repository := by
  obtain ⟨h1, h2, h3, h4⟩ := h
  unfold scanRune
  split <;> (try split_ifs with hx) <;> (try exact ⟨h1, h2, h3, h4⟩)
  · exact ⟨fun hm => (List.mem_append.1 hm).elim h1 (not_mem_encodeRune 0x20 x (by decide) hx),
      h2, h3, h4⟩
  · exact ⟨h1,
      fun hm => (List.mem_append.1 hm).elim h2 (not_mem_encodeRune 0x5D x (by decide) hx),
      h3, h4⟩
  · exact ⟨h1, h2,
      fun hm => (List.mem_append.1 hm).elim h3 (not_mem_encodeRune 0x20 x (by decide) hx), h4⟩
  · exact ⟨h1, h2, h3,
      fun hm => (List.mem_append.1 hm).elim h4 (not_mem_encodeRune 0x29 x (by decide) hx)⟩

theorem foldl_scanRune_no_delimiter (xs : List Nat) : ∀ p : Nat × Update,
    (byte 0x20 ∉ p.2.PackageName ∧ byte 0x5D ∉ p.2.CurrentVersion ∧
      byte 0x20 ∉ p.2.NewVersion ∧ byte 0x29 ∉ p.2.Repository) →
    byte 0x20 ∉ (xs.foldl scanRune p).2.PackageName ∧
      byte 0x5D ∉ (xs.foldl scanRune p).2.CurrentVersion ∧
      byte 0x20 ∉ (xs.foldl scanRune p).2.NewVersion ∧
      byte 0x29 ∉ (xs.foldl scanRune p).2.Repository := by
  induction xs with
  | nil => intro p h; exact h
  | cons x xs ih =>
    intro p h
    rw [List.foldl_cons]
    exact ih _ (scanRune_no_delimiter p x h)

/-- C14: for every input line, no field returned by `parsePackageLine` contains
the delimiter that ends it: the package name holds no space, the current
version no `]`, the new version no space and the repository no `)`. -/
theorem parsePackageLine_no_delimiter (line : GoString) :
    byte 0x20 ∉ (parsePackageLine line).PackageName ∧
      byte 0x5D ∉ (parsePackageLine line).CurrentVersion ∧
      byte 0x20 ∉ (parsePackageLine line).NewVersion ∧
      byte 0x29 ∉ (parsePackageLine line).Repository := by
  obtain ⟨e1, e2, e3, e4⟩ := parsePackageLine_fields line
  rw [e1, e2, e3, e4]
  exact foldl_scanRune_no_delimiter (runes line) (1, {})
    ⟨List.not_mem_nil _, List.not_mem_nil _, List.not_mem_nil _, List.not_mem_nil _⟩


/-! ## The fields as pieces of the line -/

theorem exists_first_occurrence (d : Nat) (l : List Nat) (h : d ∈ l) :
    ∃ m t, l = m ++ d :: t ∧ d ∉ m := by
  induction l with
  | nil => simp at h
  | cons b l ih =>
    by_cases hb : b = d
    · exact ⟨[], l, by rw [hb]; rfl, by simp⟩
    · have hl : d ∈ l := by
        rcases List.mem_cons.1 h with e | e
        · exact absurd e.symm hb
        · exact e
      obtain ⟨m, t, e, hm⟩ := ih hl
      refine ⟨b :: m, t, by rw [e]; rfl, ?_⟩
      intro hmem
      rcases List.mem_cons.1 hmem with e' | e'
      · exact hb e'.symm
      · exact hm e'

/-- The fields accumulated by the scan of a sequence of runes are, in order,
disjoint contiguous pieces of the encoding of that sequence. -/
theorem scanRunes_pieces (xs : List Nat) :
    ∃ a b c d e : GoString,
      xs.flatMap encodeRune
        = a ++ (xs.foldl scanRune (1, {})).2.PackageName
          ++ b ++ (xs.foldl scanRune (1, {})).2.CurrentVersion
          ++ c ++ (xs.foldl scanRune (1, {})).2.NewVersion
          ++ d ++ (xs.foldl scanRune (1, {})).2.Repository ++ e := by
  by_cases h1 : 0x20 ∈ xs
  swap
  · refine ⟨xs.flatMap encodeRune, [], [], [], [], ?_⟩
    rw [foldl_scan1 _ _ h1]
    simp
  obtain ⟨m, t1, rfl, hm⟩ := exists_first_occurrence _ _ h1
  by_cases h2 : 0x20 ∈ t1
  swap
  · refine ⟨(m ++ [0x20]).flatMap encodeRune, [], [], [], [], ?_⟩
    rw [scanRunes_state2 m t1 hm h2]
    simp [List.flatMap_append]
  obtain ⟨n, t2, rfl, hn⟩ := exists_first_occurrence _ _ h2
  by_cases h3 : 0x5B ∈ t2
  swap
  · refine ⟨(m ++ [0x20]).flatMap encodeRune, (0x20 :: t2).flatMap encodeRune, [], [], [], ?_⟩
    rw [scanRunes_state3 m n t2 hm hn h3]
    simp [List.flatMap_append]
  obtain ⟨g, t3, rfl, hg⟩ := exists_first_occurrence _ _ h3
  by_cases h4 : 0x5D ∈ t3
  swap
  · refine ⟨(m ++ [0x20]).flatMap encodeRune, (0x20 :: (g ++ [0x5B])).flatMap encodeRune,
      [], [], [], ?_⟩
    rw [scanRunes_state4 m n g t3 hm hn hg h4]
    simp [List.flatMap_append]
  obtain ⟨c, t4, rfl, hc⟩ := exists_first_occurrence _ _ h4
  by_cases h5 : 0x28 ∈ t4
  swap
  · refine ⟨(m ++ [0x20]).flatMap encodeRune, (0x20 :: (g ++ [0x5B])).flatMap encodeRune,
      (0x5D :: t4).flatMap encodeRune, [], [], ?_⟩
    rw [scanRunes_state5 m n g c t4 hm hn hg hc h5]
    simp [List.flatMap_append]
  obtain ⟨h, t5, rfl, hh⟩ := exists_first_occurrence _ _ h5
  by_cases h6 : 0x20 ∈ t5
  swap
  · refine ⟨(m ++ [0x20]).flatMap encodeRune, (0x20 :: (g ++ [0x5B])).flatMap encodeRune,
      (0x5D :: (h ++ [0x28])).flatMap encodeRune, [], [], ?_⟩
    rw [scanRunes_state6 m n g c h t5 hm hn hg hc hh h6]
    simp [List.flatMap_append]
  obtain ⟨v, t6, rfl, hv⟩ := exists_first_occurrence _ _ h6
  by_cases h7 : 0x29 ∈ t6
  swap
  · refine ⟨(m ++ [0x20]).flatMap encodeRune, (0x20 :: (g ++ [0x5B])).flatMap encodeRune,
      (0x5D :: (h ++ [0x28])).flatMap encodeRune, encodeRune 0x20, [], ?_⟩
    rw [scanRunes_state7 m n g c h v t6 hm hn hg hc hh hv h7]
    simp [List.flatMap_append]
  obtain ⟨r, t7, rfl, hr⟩ := exists_first_occurrence _ _ h7
  refine ⟨(m ++ [0x20]).flatMap encodeRune, (0x20 :: (g ++ [0x5B])).flatMap encodeRune,
    (0x5D :: (h ++ [0x28])).flatMap encodeRune, encodeRune 0x20,
    (0x29 :: t7).flatMap encodeRune, ?_⟩
  rw [scanRunes_state8 m n g c h v r t7 hm hn hg hc hh hv hr]
  simp [List.flatMap_append]

/-- For every string of bytes, the fields returned are, in order, disjoint
contiguous pieces of the line as the `range` loop reads it (the line itself
when it is well-formed UTF-8). -/
theorem parsePackageLine_pieces_reencode (line : GoString) :
    ∃ a b c d e : GoString,
      reencode line
        = a ++ (parsePackageLine line).PackageName ++ b ++ (parsePackageLine line).CurrentVersion
          ++ c ++ (parsePackageLine line).NewVersion ++ d ++ (parsePackageLine line).Repository
          ++ e := by
  obtain ⟨e1, e2, e3, e4⟩ := parsePackageLine_fields line
  rw [e1, e2, e3, e4]
  exact scanRunes_pieces (runes line)

set_option maxRecDepth 100000 in
/-- C15, as stated, fails: for `illFormedLine`, the two bytes space and `0xFF`,
the package name returned is the three bytes of U+FFFD, which is longer than
the line, so the fields are not pieces of the line. -/
theorem parsePackageLine_pieces_counterexample :
    (parsePackageLine illFormedLine).PackageName = replacementBytes ∧
      ¬ ∃ a b c d e : GoString,
        illFormedLine
          = a ++ (parsePackageLine illFormedLine).PackageName
            ++ b ++ (parsePackageLine illFormedLine).CurrentVersion
            ++ c ++ (parsePackageLine illFormedLine).NewVersion
            ++ d ++ (parsePackageLine illFormedLine).Repository ++ e := by
  have hp : (parsePackageLine illFormedLine).PackageName = replacementBytes := by decide
  refine ⟨hp, ?_⟩
  rintro ⟨a, b, c, d, e, h⟩
  have hl := congrArg List.length h
  rw [hp] at hl
  simp only [List.length_append, illFormedLine, replacementBytes, List.length_cons,
    List.length_nil] at hl
  omega

/-- C15, amended: for every input line that is well-formed UTF-8 (the encoding
of a text), the four fields returned by `parsePackageLine` are non-overlapping
contiguous pieces of the line, in the order package name, current version, new
version, repository: the line is `a ++ PackageName ++ b ++ CurrentVersion ++ c
++ NewVersion ++ d ++ Repository ++ e` for some strings `a`, `b`, `c`, `d`,
`e`. -/
theorem parsePackageLine_pieces (line : String) :
    ∃ a b c d e : GoString,
      lit line
        = a ++ (parsePackageLine (lit line)).PackageName
          ++ b ++ (parsePackageLine (lit line)).CurrentVersion
          ++ c ++ (parsePackageLine (lit line)).NewVersion
          ++ d ++ (parsePackageLine (lit line)).Repository ++ e := by
  have h := parsePackageLine_pieces_reencode (lit line)
  rw [reencode_lit] at h
  exact h

end Agent
